import Mathlib

/-!
# gh-manage-env: a shallow embedding and its verified properties

The development follows the three source files of the repository:

* `internal/dotenv/dotenv.go`  (`ParseFile`),
* `internal/gh/gh.go`          (`DetectRepoFromGitRemote`, `SetSecretsFromMap`,
                                `SetVariablesFromMap`, `DeleteMissing`, `runPrint`, `run`, ...),
* `cmd/root.go`                (`Options`, the body of `rootCmd.RunE`).

Conventions of the embedding.

* A Go `string` is modelled by the list of its Unicode code points (`Str`); the input
  files are taken to be valid UTF-8.  Where the source counts bytes (`len`), the model
  uses `byteLen`, the length of the UTF-8 encoding.
* A Go `map[string]string` is modelled by an association list with pairwise distinct
  keys (`GoMap`); `mapSet` is the assignment `m[k] = v`, `mapGet` the lookup.  The order
  in which Go visits a map in `range` is unspecified, so every statement about a loop over
  a map is made for an arbitrary visiting order.
* Functions that return `(T, error)` return `Except _ T`.
* Functions with effects pass a `World` (the remote store and the log of what was done)
  and return the new one, also when they fail.  The external agent `gh` is not part of
  the repository: its effect on the remote store is taken from its contract in the
  specification (`Call.effect`, `Call.output`; bulk set reads the staging file the run
  wrote, as a definition file), and which invocations fail is left open
  (`Agent`).
-/

namespace GhManageEnv

/-- A Go string, as the list of its code points. -/
abbrev Str := List Char

/-- A Go `map[string]string`. -/
abbrev GoMap := List (Str × Str)

deriving instance DecidableEq for Except

/-! ## Library functions used by the sources -/

/-- Go `unicode.IsSpace`: the characters `strings.TrimSpace` removes. -/
def isSpace (c : Char) : Bool :=
  let n := c.toNat
  (0x09 ≤ n && n ≤ 0x0D) || n == 0x20 || n == 0x85 || n == 0xA0 || n == 0x1680 ||
    (0x2000 ≤ n && n ≤ 0x200A) || n == 0x2028 || n == 0x2029 || n == 0x202F ||
    n == 0x205F || n == 0x3000

/-- Go `strings.TrimSpace`. -/
def TrimSpace (s : Str) : Str :=
  (s.dropWhile isSpace).rdropWhile isSpace

/-- Go `strings.HasPrefix`. -/
def HasPrefix (s pre : Str) : Bool := pre.isPrefixOf s

/-- Go `strings.TrimPrefix`. -/
def TrimPrefix (s pre : Str) : Str :=
  if HasPrefix s pre then s.drop pre.length else s

/-- Go `strings.HasSuffix`. -/
def HasSuffix (s suf : Str) : Bool := suf.reverse.isPrefixOf s.reverse

/-- Go `strings.TrimSuffix`. -/
def TrimSuffix (s suf : Str) : Str :=
  if HasSuffix s suf then s.take (s.length - suf.length) else s

/-- Go `strings.Index`: the position of the first occurrence of `sub` in `s`
(`none` where Go returns `-1`). -/
def Index : Str → Str → Option Nat
  | [], sub => if sub.isPrefixOf [] then some 0 else none
  | c :: s, sub =>
    if sub.isPrefixOf (c :: s) then some 0 else (Index s sub).map (· + 1)

/-- Go `strings.Split(s, sep)` for a separator of one character. -/
def Split : Str → Char → List Str
  | [], _ => [[]]
  | c :: s, sep =>
    if c = sep then [] :: Split s sep
    else match Split s sep with
      | [] => [[c]]
      | h :: t => (c :: h) :: t

/-- Go `strings.SplitN(s, sep, n)` for a separator of one character and `n ≥ 0`. -/
def SplitN : Str → Char → Nat → List Str
  | _, _, 0 => []
  | s, _, 1 => [s]
  | [], _, _ + 2 => [[]]
  | c :: s, sep, n + 2 =>
    if c = sep then [] :: SplitN s sep (n + 1)
    else match SplitN s sep (n + 2) with
      | [] => [[c]]
      | h :: t => (c :: h) :: t

/-- Go `strings.Join`. -/
def Join : List Str → Str → Str
  | [], _ => []
  | [a], _ => a
  | a :: b :: t, sep => a ++ sep ++ Join (b :: t) sep

/-- Go `len(s)`: the number of bytes of the UTF-8 encoding. -/
def byteLen (s : Str) : Nat := (s.map Char.utf8Size).sum

/-- Assignment `m[k] = v` on a Go map. -/
def mapSet : GoMap → Str → Str → GoMap
  | [], k, v => [(k, v)]
  | (k', v') :: t, k, v => if k' = k then (k, v) :: t else (k', v') :: mapSet t k v

/-- Lookup `m[k]` on a Go map (`none` when the key is absent). -/
def mapGet : GoMap → Str → Option Str
  | [], _ => none
  | (k', v') :: t, k => if k' = k then some v' else mapGet t k

/-- The keys of a Go map. -/
def mapKeys (m : GoMap) : List Str := m.map Prod.fst

/-- Two Go maps are the same map: they hold the same value at every key. -/
def MapEq (m₁ m₂ : GoMap) : Prop := ∀ k, mapGet m₁ k = mapGet m₂ k

/-! ## `internal/dotenv/dotenv.go` -/

/-- The errors `ParseFile` returns. -/
inductive ParseError where
  /-- `open dotenv file: ...` -/
  | openFile
  /-- `invalid dotenv line %d: %q` with the line number and the line as processed so far -/
  | invalidLine (lineNo : Nat) (line : Str)
  /-- `empty key at line %d` -/
  | emptyKey (lineNo : Nat)
  /-- `scan dotenv file: ...` (the scanner stopped with an error) -/
  | scan
  deriving DecidableEq, Repr

/-- Go `bufio.MaxScanTokenSize`, the size limit of the default `bufio.Scanner` buffer. -/
def maxScanTokenSize : Nat := 64 * 1024

/-- The `dropCR` of `bufio.ScanLines`: one trailing carriage return is removed. -/
def dropCR (s : Str) : Str :=
  if s.getLast? = some '\r' then s.dropLast else s

/-- The pieces of the text between newlines, as `bufio.ScanLines` cuts them: a last piece
that is empty (the text is empty or ends in a newline) is not a line. -/
def rawLines (text : Str) : List Str :=
  let ps := Split text '\n'
  if ps.getLast? = some [] then ps.dropLast else ps

/-- The test of source line 24: the trimmed line is empty or starts with `#`. -/
def isSkipped (line : Str) : Bool :=
  line == [] || HasPrefix line "#".toList

/-- Source lines 28-30: a leading `export ` is removed and the rest trimmed. -/
def stripExport (line : Str) : Str :=
  if HasPrefix line "export ".toList then TrimSpace (TrimPrefix line "export ".toList)
  else line

/-- Source lines 34-36: the line is cut at the first ` #` and trimmed. -/
def stripComment (line : Str) : Str :=
  match Index line " #".toList with
  | some idx => TrimSpace (line.take idx)
  | none => line

/-- Source lines 47-51: one layer of matching quotes is removed.  `val[0]` and
`val[len(val)-1]` are bytes; a byte equals an ASCII quote exactly when the first (last)
code point is that quote. -/
def unquote (val : Str) : Str :=
  if 2 ≤ byteLen val then
    if (val.head? == some '"' && val.getLast? == some '"') ||
        (val.head? == some '\'' && val.getLast? == some '\'') then
      (val.drop 1).dropLast
    else val
  else val

/-- The body of the scanning loop (source lines 23-57) on the text of one line:
`ok none` is `continue`, `ok (some (key, val))` is the assignment `out[key] = val`. -/
def parseLine (lineNo : Nat) (text : Str) : Except ParseError (Option (Str × Str)) :=
  let line := TrimSpace text
  if isSkipped line then .ok none
  else
    let line := stripExport line
    let line := stripComment line
    match SplitN line '=' 2 with
    | [p0, p1] =>
      let key := TrimSpace p0
      let val := TrimSpace p1
      let val := unquote val
      if key = [] then .error (.emptyKey lineNo)
      else .ok (some (key, val))
    | _ => .error (.invalidLine lineNo line)

/-- The loop `for sc.Scan() { ... }` followed by the check of `sc.Err()`: `lineNo` lines
have been read, `out` is the map so far.  The scanner delivers a line when it fits its
buffer (fewer than `maxScanTokenSize` bytes, carriage return included) and stops with
`ErrTooLong` otherwise. -/
def scanLoop : List Str → Nat → GoMap → Except ParseError GoMap
  | [], _, out => .ok out
  | raw :: rest, lineNo, out =>
    if maxScanTokenSize ≤ byteLen raw then .error .scan
    else
      match parseLine (lineNo + 1) (dropCR raw) with
      | .error e => .error e
      | .ok none => scanLoop rest (lineNo + 1) out
      | .ok (some (key, val)) => scanLoop rest (lineNo + 1) (mapSet out key val)

/-- `dotenv.ParseFile`, on the content of the file at the path (`none`: the file cannot be
opened). -/
def ParseFile (file : Option Str) : Except ParseError GoMap :=
  match file with
  | none => .error .openFile
  | some text => scanLoop (rawLines text) 0 []

/-! ## `internal/gh/gh.go` -/

/-- The errors `DetectRepoFromGitRemote` returns. -/
inductive DetectError where
  /-- `git remote get-url origin failed: ...` -/
  | gitFailed
  /-- `unsupported origin url: %s` -/
  | unsupported (u : Str)
  /-- `unable to parse owner/repo from: %s` -/
  | unparsable (u : Str)
  deriving DecidableEq, Repr

/-- The parsing of `DetectRepoFromGitRemote` (source lines 39-60) on the output `out` of
`git remote get-url origin`. -/
def parseRemoteURL (out : Str) : Except DetectError Str :=
  let u := TrimSpace out
  let u := TrimSuffix u ".git".toList
  let path : Option Str :=
    if HasPrefix u "git@github.com:".toList then
      some (TrimPrefix u "git@github.com:".toList)
    else if HasPrefix u "https://github.com/".toList then
      some (TrimPrefix u "https://github.com/".toList)
    else none
  match path with
  | none => .error (.unsupported u)
  | some path =>
    match Split path '/' with
    | [p0, p1] => .ok (p0 ++ "/".toList ++ p1)
    | _ => .error (.unparsable u)

/-- `gh.DetectRepoFromGitRemote`, on the result of running `git remote get-url origin`
(`none`: the command failed). -/
def DetectRepoFromGitRemote (gitOutput : Option Str) : Except DetectError Str :=
  match gitOutput with
  | none => .error .gitFailed
  | some out => parseRemoteURL out

/-- The text `writeEnvTempFile` builds (source lines 173-180) when the map is visited in
the order `kv`: one line `KEY=VALUE` per entry, no quoting. -/
def envFileContent : List (Str × Str) → Str
  | [] => []
  | (k, v) :: t => k ++ "=".toList ++ v ++ "\n".toList ++ envFileContent t

/-- The two kinds of remote values; `word` is the subcommand of the agent. -/
inductive Kind where
  | secret
  | variable
  deriving DecidableEq, Repr

/-- The subcommand word of a kind (`"secret"` or `"variable"`). -/
def Kind.word : Kind → Str
  | .secret => "secret".toList
  | .variable => "variable".toList

/-- The invocations of the external agent `gh` that the program builds. -/
inductive Call where
  /-- `gh auth status` -/
  | authStatus
  /-- `gh api -X PUT repos/<repo>/environments/<env>` -/
  | envPut (repo env : Str)
  /-- `gh secret set -f <tmp> -R <repo> [--env <env>]`, or the same with `variable` -/
  | bulkSet (kind : Kind) (tmp : Str) (repo env : Str)
  /-- `gh secret list --json name -R <repo> [--env <env>]`, or the same with `variable` -/
  | list (kind : Kind) (repo env : Str)
  /-- `gh secret delete <name> -R <repo> [--env <env>]`, or the same with `variable` -/
  | delete (kind : Kind) (name repo env : Str)
  deriving DecidableEq, Repr

/-- The `--env` arguments appended when an environment is given. -/
def envArgs (env : Str) : List Str :=
  if env ≠ [] then ["--env".toList, env] else []

/-- The argument vector of an invocation, as the source builds it. -/
def Call.args : Call → List Str
  | .authStatus => ["auth".toList, "status".toList]
  | .envPut repo env =>
    ["api".toList, "-X".toList, "PUT".toList,
      "repos/".toList ++ repo ++ "/environments/".toList ++ env]
  | .bulkSet kind tmp repo env =>
    [kind.word, "set".toList, "-f".toList, tmp, "-R".toList, repo] ++ envArgs env
  | .list kind repo env =>
    [kind.word, "list".toList, "--json".toList, "name".toList, "-R".toList, repo] ++ envArgs env
  | .delete kind name repo env =>
    [kind.word, "delete".toList, name, "-R".toList, repo] ++ envArgs env

/-- The invocations that change the remote store: environment create/update, bulk set
and delete. -/
def Call.mutating : Call → Bool
  | .authStatus => false
  | .envPut _ _ => true
  | .bulkSet _ _ _ _ => true
  | .list _ _ _ => false
  | .delete _ _ _ _ => true

/-- One remote value: its scope (repository and environment, the environment empty at
repository scope), its name and its value. -/
structure Entry where
  repo : Str
  env : Str
  name : Str
  value : Str
  deriving DecidableEq, Repr

/-- The remote store of the platform: the environments that exist, the secrets and the
variables. -/
structure Remote where
  envs : List (Str × Str)
  secrets : List Entry
  vars : List Entry
  deriving DecidableEq, Repr

/-- The values of one kind. -/
def Remote.values (r : Remote) : Kind → List Entry
  | .secret => r.secrets
  | .variable => r.vars

/-- Replaces the values of one kind. -/
def Remote.setValues (r : Remote) (kind : Kind) (es : List Entry) : Remote :=
  match kind with
  | .secret => { r with secrets := es }
  | .variable => { r with vars := es }

/-- Whether an entry is the value `name` of the scope `(repo, env)`. -/
def Entry.isAt (e : Entry) (repo env name : Str) : Bool :=
  e.repo == repo && e.env == env && e.name == name

/-- The names of the values of a scope. -/
def storeNames (es : List Entry) (repo env : Str) : List Str :=
  (es.filter (fun e => e.repo == repo && e.env == env)).map Entry.name

/-- The store without the value `name` of the scope. -/
def storeDelete (es : List Entry) (repo env name : Str) : List Entry :=
  es.filter (fun e => !e.isAt repo env name)

/-- The store with the value `name` of the scope set to `value`. -/
def storeUpsert (es : List Entry) (repo env name value : Str) : List Entry :=
  storeDelete es repo env name ++ [⟨repo, env, name, value⟩]

/-- The store with every entry of the mapping set. -/
def storeUpsertAll (es : List Entry) (repo env : Str) : GoMap → List Entry
  | [] => es
  | (k, v) :: t => storeUpsertAll (storeUpsert es repo env k v) repo env t

/-- Modelled from the spec: the external agent `gh` is not part of the repository; this
is its contract (sections 1, 4.3 and 6 of the specification), what a successful
invocation does to the remote store, `file` giving the content of the file at a path.
The environment is created or left as it is; bulk set reads the staging file it is
pointed at as a definition file (the format the specification gives the staging file) and
upserts every entry it holds in the scope, and cannot succeed (`none`) when the file is
missing or is not a definition file; delete removes the named value of the scope; the
other invocations leave the store as it is. -/
def Call.effect (c : Call) (file : Str → Option Str) (r : Remote) : Option Remote :=
  match c with
  | .authStatus => some r
  | .envPut repo env =>
    some (if (repo, env) ∈ r.envs then r else { r with envs := r.envs ++ [(repo, env)] })
  | .bulkSet kind tmp repo env =>
    match file tmp with
    | none => none
    | some text =>
      match ParseFile (some text) with
      | .error _ => none
      | .ok kv => some (r.setValues kind (storeUpsertAll (r.values kind) repo env kv))
  | .list _ _ _ => some r
  | .delete kind name repo env =>
    some (r.setValues kind (storeDelete (r.values kind) repo env name))

/-- Modelled from the spec: the external agent `gh` is not part of the repository; by
its contract a successful list invocation reports the names of the scope (the decoded
JSON array); the other invocations report nothing the program reads. -/
def Call.output (c : Call) (r : Remote) : List Str :=
  match c with
  | .list kind repo env => storeNames (r.values kind) repo env
  | _ => []

/-- What the contract of the external agent leaves open: which invocations fail besides
those that cannot succeed (for any reason: network, permissions, a missing environment),
and in what state a failing mutating invocation leaves the store. -/
structure Agent where
  fails : Call → Remote → Bool
  residue : Call → Remote → Remote

/-- What the run does, in order. -/
inductive Event where
  /-- a line written to standard output -/
  | print (text : Str)
  /-- the external agent was started with this invocation -/
  | exec (c : Call)
  /-- `git remote get-url origin` was started -/
  | execGit
  /-- a staging file was written -/
  | writeFile (path content : Str)
  /-- a staging file was removed -/
  | removeFile (path : Str)
  /-- a line was read from standard input -/
  | readAnswer
  deriving DecidableEq, Repr

/-- The state a run acts on: the remote store and the log of what was done. -/
structure World where
  remote : Remote
  trace : List Event
  deriving DecidableEq, Repr

/-- The machine the program runs on, as far as the program observes it. -/
structure Host where
  /-- `exec.LookPath("gh")` succeeds -/
  ghInstalled : Bool
  /-- the output of `git remote get-url origin`, `none` when it fails -/
  gitOrigin : Option Str
  /-- the content of the file at `filepath.Clean(path)`, `none` when it cannot be opened -/
  readFile : Str → Option Str
  /-- the word typed at the confirmation prompt -/
  answer : Str
  /-- `filepath.Join(os.TempDir(), name)` -/
  tempFile : Str → Str
  /-- `runtime.GOOS` -/
  goos : Str
  /-- `os.WriteFile` fails for this path -/
  writeFails : Str → Bool

/-- The errors a run returns. -/
inductive RunError where
  /-- `GitHub CLI not found` -/
  | notInstalled
  /-- `gh not authenticated` -/
  | notAuthenticated
  /-- `unable to detect repo` -/
  | detect (e : DetectError)
  /-- an error of `ParseFile` -/
  | parse (e : ParseError)
  /-- `write temp env file` -/
  | writeTemp
  /-- the invocation of the external agent failed -/
  | agent (c : Call)
  deriving DecidableEq, Repr

/-- Appends an event to the log. -/
def World.emit (w : World) (e : Event) : World :=
  { w with trace := w.trace ++ [e] }

/-- The content of the file at `path` after the writes and removals of the log: what the
last `os.WriteFile` to the path put there, `none` once the path is removed (and for a path
the run never wrote). -/
def stagedFile (trace : List Event) (path : Str) : Option Str :=
  trace.foldl (fun content e =>
    match e with
    | .writeFile p c => if p = path then some c else content
    | .removeFile p => if p = path then none else content
    | _ => content) none

/-- Starts the external agent (`cmd.Run()`): the invocation is logged; when it succeeds the
store changes by the contract, on the files as the run has left them, and the output is
returned; when it fails the error is returned, and only a mutating invocation may have
changed the store. -/
def agentRun (ag : Agent) (c : Call) (w : World) : Except RunError (List Str) × World :=
  let w1 := w.emit (.exec c)
  match (if ag.fails c w.remote then none else c.effect (stagedFile w.trace) w.remote) with
  | none =>
    (.error (.agent c),
      { w1 with remote := if c.mutating then ag.residue c w.remote else w.remote })
  | some r => (.ok (c.output w.remote), { w1 with remote := r })

/-- The line printed for an invocation: the marker, `gh` and the arguments joined by
blanks. -/
def invocationLine (marker : Str) (c : Call) : Str :=
  marker ++ " gh ".toList ++ Join c.args " ".toList ++ "\n".toList

/-- `gh.runPrint` with `bin = "gh"`. -/
def runPrint (ag : Agent) (c : Call) (dryRun verbose : Bool) (w : World) :
    Except RunError Unit × World :=
  if dryRun then (.ok (), w.emit (.print (invocationLine "[dry-run]".toList c)))
  else
    let w := if verbose then w.emit (.print (invocationLine "[run]".toList c)) else w
    match agentRun ag c w with
    | (.error e, w) => (.error e, w)
    | (.ok _, w) => (.ok (), w)

/-- `gh.run` with `bin = "gh"` and no standard input: the invocation is always executed. -/
def run (ag : Agent) (c : Call) (verbose : Bool) (w : World) :
    Except RunError (List Str) × World :=
  let w := if verbose then w.emit (.print (invocationLine "[run]".toList c)) else w
  agentRun ag c w

/-- `gh.RequireInstalled`. -/
def RequireInstalled (host : Host) : Except RunError Unit :=
  if host.ghInstalled then .ok () else .error .notInstalled

/-- `gh.RequireAuth`: `gh auth status` is run. -/
def RequireAuth (ag : Agent) (w : World) : Except RunError Unit × World :=
  match agentRun ag .authStatus w with
  | (.error _, w) => (.error .notAuthenticated, w)
  | (.ok _, w) => (.ok (), w)

/-- `gh.EnsureEnvironment`. -/
def EnsureEnvironment (ag : Agent) (repo env : Str) (w : World) :
    Except RunError Unit × World :=
  match run ag (.envPut repo env) false w with
  | (.error e, w) => (.error e, w)
  | (.ok _, w) => (.ok (), w)

/-- `gh.writeEnvTempFile`: the staging file is written and its path returned. -/
def writeEnvTempFile (host : Host) (pre : Str) (kv : GoMap) (w : World) :
    Except RunError Str × World :=
  let name := "gh-manage-env_".toList ++ pre ++ "_".toList ++ host.goos ++ ".env".toList
  let path := host.tempFile name
  if host.writeFails path then (.error .writeTemp, w)
  else (.ok path, w.emit (.writeFile path (envFileContent kv)))

/-- The common body of `gh.SetSecretsFromMap` and `gh.SetVariablesFromMap`, which differ in
the staging-file name and the subcommand only; the staging file is removed when the
function returns (`defer os.Remove(tmp)`). -/
def setFromMap (host : Host) (ag : Agent) (kind : Kind) (pre : Str) (repo env : Str)
    (kv : GoMap) (dryRun verbose : Bool) (w : World) : Except RunError Unit × World :=
  match writeEnvTempFile host pre kv w with
  | (.error e, w) => (.error e, w)
  | (.ok tmp, w) =>
    match runPrint ag (.bulkSet kind tmp repo env) dryRun verbose w with
    | (r, w) => (r, w.emit (.removeFile tmp))

/-- `gh.SetSecretsFromMap`. -/
def SetSecretsFromMap (host : Host) (ag : Agent) (repo env : Str) (secrets : GoMap)
    (dryRun verbose : Bool) (w : World) : Except RunError Unit × World :=
  setFromMap host ag .secret "secrets".toList repo env secrets dryRun verbose w

/-- `gh.SetVariablesFromMap`. -/
def SetVariablesFromMap (host : Host) (ag : Agent) (repo env : Str) (vars : GoMap)
    (dryRun verbose : Bool) (w : World) : Except RunError Unit × World :=
  setFromMap host ag .variable "vars".toList repo env vars dryRun verbose w

/-- `gh.listNames`. -/
def listNames (ag : Agent) (kind : Kind) (repo env : Str) (w : World) :
    Except RunError (List Str) × World :=
  run ag (.list kind repo env) false w

/-- One of the two deletion loops of `gh.DeleteMissing` (source lines 116-127 for the
secrets, 130-141 for the variables): every existing name that is not a key of `desired`
is deleted; the first failing delete ends the loop with its error. -/
def deleteLoop (ag : Agent) (kind : Kind) (repo env : Str) (desired : GoMap)
    (dryRun verbose : Bool) : List Str → World → Except RunError Unit × World
  | [], w => (.ok (), w)
  | s :: rest, w =>
    if (mapGet desired s).isSome then deleteLoop ag kind repo env desired dryRun verbose rest w
    else
      match runPrint ag (.delete kind s repo env) dryRun verbose w with
      | (.error e, w) => (.error e, w)
      | (.ok _, w) => deleteLoop ag kind repo env desired dryRun verbose rest w

/-- `gh.DeleteMissing`. -/
def DeleteMissing (ag : Agent) (repo env : Str) (desiredSecrets desiredVars : GoMap)
    (dryRun verbose : Bool) (w : World) : Except RunError Unit × World :=
  match listNames ag .secret repo env w with
  | (.error e, w) => (.error e, w)
  | (.ok existingSecrets, w) =>
    match listNames ag .variable repo env w with
    | (.error e, w) => (.error e, w)
    | (.ok existingVars, w) =>
      match deleteLoop ag .secret repo env desiredSecrets dryRun verbose existingSecrets w with
      | (.error e, w) => (.error e, w)
      | (.ok _, w) =>
        deleteLoop ag .variable repo env desiredVars dryRun verbose existingVars w

/-! ## `cmd/root.go` -/

/-- The command-line options. -/
structure Options where
  Env : Str
  File : Str
  SecretPrefix : Str
  DeleteMissing : Bool
  DryRun : Bool
  Yes : Bool
  Repo : Str
  KeepPrefix : Bool
  StripExport : Bool
  Verbose : Bool
  deriving DecidableEq, Repr

/-- The remote name of a local key (source lines 69-73): the key without the secret
prefix when the key is a secret and the prefix is not kept, the key itself otherwise. -/
def remoteName (secretPrefix : Str) (keepPrefix : Bool) (k : Str) : Str :=
  if HasPrefix k secretPrefix && !keepPrefix then TrimPrefix k secretPrefix else k

/-- The two mappings the entries are split into. -/
structure Classified where
  secrets : GoMap
  vars : GoMap
  deriving DecidableEq, Repr

/-- The body of the classification loop (source lines 69-78) for one entry. -/
def classifyStep (secretPrefix : Str) (keepPrefix : Bool) (acc : Classified)
    (kv : Str × Str) : Classified :=
  if HasPrefix kv.1 secretPrefix then
    { acc with secrets := mapSet acc.secrets (remoteName secretPrefix keepPrefix kv.1) kv.2 }
  else
    { acc with vars := mapSet acc.vars (remoteName secretPrefix keepPrefix kv.1) kv.2 }

/-- The classification loop (source lines 64-79) when the parsed map is visited in the
order `entries` (Go leaves the order of `range` over a map open). -/
def classify (secretPrefix : Str) (keepPrefix : Bool) (entries : List (Str × Str)) :
    Classified :=
  entries.foldl (classifyStep secretPrefix keepPrefix) ⟨[], []⟩

/-- Go `strings.ToLower`, on the letters that matter for the comparison with `y` and
`yes` (no other character has one of these letters as its lower case). -/
def ToLower (s : Str) : Str := s.map Char.toLower

/-- The confirmation of source lines 106-118: `true` when the run goes on to
`DeleteMissing` (`--yes`, or the answer `y` or `yes`), `false` when the user declined and
the run ends there without error. -/
def confirmDelete (host : Host) (opts : Options) (w : World) : Bool × World :=
  if !opts.Yes then
    let w := w.emit (.print
      "⚠️  -d enabled: this will delete secrets/variables not present in the file.\n".toList)
    let w := w.emit (.print "Use --yes to skip confirmation.\n".toList)
    let w := w.emit (.print "Continue? [y/N] ".toList)
    let w := w.emit .readAnswer
    let answer := ToLower (TrimSpace host.answer)
    if answer ≠ "y".toList && answer ≠ "yes".toList then
      (false, w.emit (.print "Aborted.\n".toList))
    else (true, w)
  else (true, w)

/-- The part of `rootCmd.RunE` after the file is parsed (source lines 64-126), for the
repository `repo` and the parsed mapping `entries`. -/
def syncEntries (host : Host) (ag : Agent) (opts : Options) (repo : Str) (entries : GoMap)
    (w : World) : Except RunError Unit × World :=
  let c := classify opts.SecretPrefix opts.KeepPrefix entries
  let secrets := c.secrets
  let vars := c.vars
  -- Ensure environment exists (idempotent) if -e
  let (r1, w) :=
    if opts.Env ≠ [] then
      if opts.DryRun then
        ((.ok () : Except RunError Unit), w.emit (.print
          ("[dry-run] would ensure environment exists: ".toList ++ opts.Env ++
            " (repo ".toList ++ repo ++ ")\n".toList)))
      else EnsureEnvironment ag repo opts.Env w
    else (.ok (), w)
  match r1 with
  | .error e => (.error e, w)
  | .ok _ =>
    -- Upsert (batch via temp files)
    let (r2, w) :=
      if 0 < secrets.length then
        SetSecretsFromMap host ag repo opts.Env secrets opts.DryRun opts.Verbose w
      else (.ok (), w)
    match r2 with
    | .error e => (.error e, w)
    | .ok _ =>
      let (r3, w) :=
        if 0 < vars.length then
          SetVariablesFromMap host ag repo opts.Env vars opts.DryRun opts.Verbose w
        else (.ok (), w)
      match r3 with
      | .error e => (.error e, w)
      | .ok _ =>
        -- Delete missing
        if opts.DeleteMissing then
          match confirmDelete host opts w with
          | (false, w) => (.ok (), w)
          | (true, w) =>
            match DeleteMissing ag repo opts.Env secrets vars opts.DryRun opts.Verbose w with
            | (.error e, w) => (.error e, w)
            | (.ok _, w) => (.ok (), w.emit (.print "✅ Done.\n".toList))
        else (.ok (), w.emit (.print "✅ Done.\n".toList))

/-- The defaults of source lines 34-41: an empty file option becomes `.env`, an empty
secret prefix becomes `SECURED_`. -/
def applyDefaults (opts : Options) : Options :=
  let opts := if opts.File = [] then { opts with File := ".env".toList } else opts
  if opts.SecretPrefix = [] then { opts with SecretPrefix := "SECURED_".toList } else opts

/-- Source lines 50-57: the repository of the option, or the one detected from the git
remote when the option is empty. -/
def resolveRepo (host : Host) (opts : Options) (w : World) : Except RunError Str × World :=
  if opts.Repo = [] then
    match DetectRepoFromGitRemote host.gitOrigin with
    | .error e => (.error (.detect e), w.emit .execGit)
    | .ok r => (.ok r, w.emit .execGit)
  else (.ok opts.Repo, w)

/-- `rootCmd.RunE`. -/
def RunE (host : Host) (ag : Agent) (opts : Options) (w : World) :
    Except RunError Unit × World :=
  let opts := applyDefaults opts
  match RequireInstalled host with
  | .error e => (.error e, w)
  | .ok _ =>
    match RequireAuth ag w with
    | (.error e, w) => (.error e, w)
    | (.ok _, w) =>
      match resolveRepo host opts w with
      | (.error e, w) => (.error e, w)
      | (.ok repo, w) =>
        match ParseFile (host.readFile opts.File) with
        | .error e => (.error (.parse e), w)
        | .ok entries => syncEntries host ag opts repo entries w

/-- The entries of `entries` that are routed to the secrets, under their remote names, in
the order of `entries`. -/
def secretPart (secretPrefix : Str) (keepPrefix : Bool) (entries : List (Str × Str)) :
    List (Str × Str) :=
  (entries.filter (fun kv => HasPrefix kv.1 secretPrefix)).map
    (fun kv => (remoteName secretPrefix keepPrefix kv.1, kv.2))

/-- The entries of `entries` that are routed to the variables, under their remote names,
in the order of `entries`. -/
def varPart (secretPrefix : Str) (keepPrefix : Bool) (entries : List (Str × Str)) :
    List (Str × Str) :=
  (entries.filter (fun kv => !HasPrefix kv.1 secretPrefix)).map
    (fun kv => (remoteName secretPrefix keepPrefix kv.1, kv.2))

/-- The assignments `m[k] = v` for the entries of a list, in order. -/
def mapSetAll (m : GoMap) (l : List (Str × Str)) : GoMap :=
  l.foldl (fun m kv => mapSet m kv.1 kv.2) m

/-- The events of a dry run: print statements, the read-only list invocations, the
writing and removal of staging files, and the reading of the answer at the prompt. -/
def Event.dryAllowed : Event → Bool
  | .print _ => true
  | .exec (.list _ _ _) => true
  | .exec _ => false
  | .execGit => false
  | .writeFile _ _ => true
  | .removeFile _ => true
  | .readAnswer => true

/-- The events that are print statements. -/
def Event.isPrint : Event → Bool
  | .print _ => true
  | _ => false

/-- From `w` to `w2` the remote store is the same and the log has grown by events that
satisfy `P`. -/
def Grows (P : Event → Bool) (w w2 : World) : Prop :=
  w2.remote = w.remote ∧ ∃ new, w2.trace = w.trace ++ new ∧ ∀ e ∈ new, P e = true

/-- A host for the examples: `gh` installed, origin `acme/widgets`, staging files under
`/tmp/`, no write failure, the answer `n` at the prompt. -/
def demoHost : Host where
  ghInstalled := true
  gitOrigin := some "git@github.com:acme/widgets.git\n".toList
  readFile := fun _ => some "SECURED_A=1\nB=2\n".toList
  answer := "n".toList
  tempFile := fun name => "/tmp/".toList ++ name
  goos := "linux".toList
  writeFails := fun _ => false

/-- An agent whose invocations all succeed. -/
def reliableAgent : Agent where
  fails := fun _ _ => false
  residue := fun _ r => r

/-- Options for the examples: `--delete-missing --yes --dry-run`, prefix `SECURED_`. -/
def demoDryOptions : Options where
  Env := []
  File := ".env".toList
  SecretPrefix := "SECURED_".toList
  DeleteMissing := true
  DryRun := true
  Yes := true
  Repo := "acme/widgets".toList
  KeepPrefix := false
  StripExport := false
  Verbose := false

/-- A remote store with one secret `OLD` at the repository scope of `acme/widgets`. -/
def demoRemote : Remote where
  envs := []
  secrets := [⟨"acme/widgets".toList, [], "OLD".toList, "z".toList⟩]
  vars := []

/-- The events that execute no mutating invocation of the external agent. -/
def Event.harmless : Event → Bool
  | .exec c => !c.mutating
  | _ => true

/-- Options for the examples: `--delete-missing --yes`, prefix `SECURED_`, executing. -/
def demoOptions : Options where
  Env := []
  File := ".env".toList
  SecretPrefix := "SECURED_".toList
  DeleteMissing := true
  DryRun := false
  Yes := true
  Repo := "acme/widgets".toList
  KeepPrefix := false
  StripExport := false
  Verbose := false

/-- What holds of every entry that `ParseFile` stores: the key is not empty, trimmed,
without `=`; key and value have no newline and no space-`#`; the line `key=value` fits
the scanner. -/
def GoodEntry (kv : Str × Str) : Prop :=
  kv.1 ≠ [] ∧ TrimSpace kv.1 = kv.1 ∧ '=' ∉ kv.1 ∧ '\n' ∉ kv.1 ∧ '\n' ∉ kv.2 ∧
    ¬ " #".toList <:+: kv.1 ∧ ¬ " #".toList <:+: kv.2 ∧
    byteLen kv.1 + 1 + byteLen kv.2 < maxScanTokenSize

/-- The entries that survive the unquoted staging format: the key starts neither with `#`
nor with `export `, the value has no whitespace at its ends and is not wrapped in a
matching pair of quotes. -/
def survivesStaging (kv : Str × Str) : Bool :=
  !HasPrefix kv.1 "#".toList && !HasPrefix kv.1 "export ".toList &&
    TrimSpace kv.2 == kv.2 && unquote kv.2 == kv.2

/-- The line `writeEnvTempFile` writes for an entry, without its newline. -/
def envLine (kv : Str × Str) : Str := kv.1 ++ "=".toList ++ kv.2

/-- The remote names that the unquoted staging format keeps: the name starts neither with
whitespace, nor with `#`, nor with `export `. -/
def stagedNameOk (name : Str) : Bool :=
  !(name.head?.any isSpace) && !HasPrefix name "#".toList &&
    !HasPrefix name "export ".toList

/-- What the proof of the staging step uses of an entry: name and value have no newline
and no space-`#`, the name has no `=` and no whitespace at its ends and starts neither
with `#` nor with `export `. -/
def Stageable (kv : Str × Str) : Prop :=
  '=' ∉ kv.1 ∧ '\n' ∉ kv.1 ∧ '\n' ∉ kv.2 ∧ ¬ " #".toList <:+: kv.1 ∧
    ¬ " #".toList <:+: kv.2 ∧ TrimSpace kv.1 = kv.1 ∧
    HasPrefix kv.1 "#".toList = false ∧ HasPrefix kv.1 "export ".toList = false

/-- The text before the first `=` of a line (the whole line when it has none). -/
def beforeEq (line : Str) : Str := line.takeWhile (· != '=')

/-- The text after the first `=` of a line. -/
def afterEq (line : Str) : Str := (line.dropWhile (· != '=')).drop 1

/-- The whitespace-trimmed value of a line: the trimmed text after the first `=` of the
line as it stands when it is split (trimmed, `export ` and inline comment removed). -/
def valueText (raw : Str) : Str :=
  TrimSpace (afterEq (stripComment (stripExport (TrimSpace raw))))

/-- What a line yields once the comment rule has been applied, in the words of the
specification: it is split at the first `=`, key and value are trimmed and one layer of
quotes is removed from the value; without `=` it is an invalid line, with an empty key it
is the empty-key error. -/
def lineEntry (lineNo : Nat) (c : Str) : Except ParseError (Option (Str × Str)) :=
  if '=' ∈ c then
    if TrimSpace (beforeEq c) = [] then .error (.emptyKey lineNo)
    else .ok (some (TrimSpace (beforeEq c), unquote (TrimSpace (afterEq c))))
  else .error (.invalidLine lineNo c)

/-- The key of a line in the words of the specification: the text before the first `=`,
after removal of a leading `export ` and trimming of whitespace. -/
def keyText (line : Str) : Str :=
  TrimSpace (beforeEq (TrimPrefix (TrimSpace line) "export ".toList))

/-- A line of 65536 letters `A`, without newline: one byte more than the longest line the
scanner delivers. -/
def longLine : Str := List.replicate 65536 'A'

/-! ## Theorems -/

/-! ### Strings -/

theorem isSpace_eq : isSpace '=' = false := by decide

theorem isSpace_hash : isSpace '#' = false := by decide

theorem isSpace_dquote : isSpace '"' = false := by decide

theorem isSpace_squote : isSpace '\'' = false := by decide

theorem isSpace_cr : isSpace '\r' = true := by decide

theorem isSpace_blank : isSpace ' ' = true := by decide

theorem TrimSpace_nil : TrimSpace [] = [] := rfl

theorem rdropWhile_part (p : Char → Bool) (s : Str) : s.rdropWhile p <:+: s :=
  (List.rdropWhile_prefix p s).isInfix

theorem TrimSpace_part (s : Str) : TrimSpace s <:+: s :=
  (rdropWhile_part _ _).trans (List.dropWhile_suffix _).isInfix

theorem TrimSpace_eq_nil_iff (s : Str) : TrimSpace s = [] ↔ ∀ c ∈ s, isSpace c = true := by
  unfold TrimSpace
  rw [List.rdropWhile_eq_nil_iff]
  constructor
  · intro h
    by_contra hc
    push_neg at hc
    obtain ⟨c, hc, hsp⟩ := hc
    have hne : s.dropWhile isSpace ≠ [] := by
      rw [Ne, List.dropWhile_eq_nil_iff]
      push_neg
      exact ⟨c, hc, hsp⟩
    have h0 := List.head?_dropWhile_not isSpace s
    cases hd : s.dropWhile isSpace with
    | nil => exact hne hd
    | cons a t =>
      rw [hd] at h0 h
      simp only [List.head?_cons] at h0
      have := h a (List.mem_cons_self _ _)
      simp [h0] at this
  · intro h c hc
    exact h c ((List.dropWhile_suffix _).subset hc)

theorem TrimSpace_of_ends (s : Str)
    (hh : ∀ c, s.head? = some c → isSpace c = false)
    (hl : ∀ c, s.getLast? = some c → isSpace c = false) : TrimSpace s = s := by
  unfold TrimSpace
  have h1 : s.dropWhile isSpace = s := by
    cases s with
    | nil => rfl
    | cons a t =>
      have := hh a rfl
      simp [List.dropWhile_cons, this]
  rw [h1]
  rw [List.rdropWhile_eq_self_iff]
  intro hne
  have := hl (s.getLast hne) (List.getLast?_eq_getLast _ hne)
  simp [this]

theorem TrimSpace_head (s : Str) (c : Char) (h : (TrimSpace s).head? = some c) :
    isSpace c = false := by
  unfold TrimSpace at h
  have h0 := List.head?_dropWhile_not isSpace s
  obtain ⟨t, ht⟩ := List.rdropWhile_prefix isSpace (s.dropWhile isSpace)
  cases hr : (s.dropWhile isSpace).rdropWhile isSpace with
  | nil => rw [hr] at h; simp at h
  | cons a r =>
    rw [hr] at h ht
    simp only [List.head?_cons, Option.some.injEq] at h
    rw [← ht] at h0
    simp only [List.cons_append, List.head?_cons] at h0
    rw [← h]; exact h0

theorem TrimSpace_last (s : Str) (c : Char) (h : (TrimSpace s).getLast? = some c) :
    isSpace c = false := by
  unfold TrimSpace at h
  have hne : (s.dropWhile isSpace).rdropWhile isSpace ≠ [] := by
    intro h0; rw [h0] at h; simp at h
  have := List.rdropWhile_last_not isSpace (s.dropWhile isSpace) hne
  rw [List.getLast?_eq_getLast _ hne] at h
  simp only [Option.some.injEq] at h
  rw [h] at this
  simpa using this

theorem TrimSpace_idem (s : Str) : TrimSpace (TrimSpace s) = TrimSpace s :=
  TrimSpace_of_ends _ (TrimSpace_head s) (TrimSpace_last s)

theorem TrimSpace_cons (c : Char) (s : Str) (hc : isSpace c = false) :
    ∃ r, TrimSpace (c :: s) = c :: r := by
  unfold TrimSpace
  have h1 : (c :: s).dropWhile isSpace = c :: s := by simp [List.dropWhile_cons, hc]
  rw [h1]
  cases hr : (c :: s).rdropWhile isSpace with
  | nil =>
    rw [List.rdropWhile_eq_nil_iff] at hr
    have := hr c (List.mem_cons_self _ _)
    simp [hc] at this
  | cons a r =>
    obtain ⟨t, ht⟩ := List.rdropWhile_prefix isSpace (c :: s)
    rw [hr] at ht
    simp only [List.cons_append, List.cons.injEq] at ht
    exact ⟨r, by rw [ht.1]⟩

theorem Index_eq_none_iff (s sub : Str) : Index s sub = none ↔ ¬ sub <:+: s := by
  induction s with
  | nil =>
    unfold Index
    by_cases h : sub.isPrefixOf ([] : Str) = true
    · rw [if_pos h]
      rw [List.isPrefixOf_iff_prefix] at h
      simp [h.isInfix]
    · rw [if_neg h]
      simp only [true_iff]
      intro hin
      apply h
      rw [List.isPrefixOf_iff_prefix]
      rw [List.infix_nil] at hin
      rw [hin]
  | cons c t ih =>
    unfold Index
    by_cases h : sub.isPrefixOf (c :: t) = true
    · rw [if_pos h]
      rw [List.isPrefixOf_iff_prefix] at h
      simp [h.isInfix]
    · rw [if_neg h, Option.map_eq_none', ih]
      rw [List.isPrefixOf_iff_prefix] at h
      rw [List.infix_cons_iff]
      tauto

theorem Index_some (s sub : Str) (hsub : sub ≠ []) (i : Nat) (h : Index s sub = some i) :
    sub <+: s.drop i ∧ ¬ sub <:+: s.take (i + sub.length - 1) := by
  have hlen : 0 < sub.length := List.length_pos.mpr hsub
  induction s generalizing i with
  | nil =>
    unfold Index at h
    split at h
    · rename_i hp
      rw [List.isPrefixOf_iff_prefix] at hp
      exact absurd (List.prefix_nil.mp hp) hsub
    · exact absurd h (by simp)
  | cons c t ih =>
    unfold Index at h
    by_cases hp : sub.isPrefixOf (c :: t) = true
    · rw [if_pos hp] at h
      simp only [Option.some.injEq] at h
      subst h
      rw [List.isPrefixOf_iff_prefix] at hp
      refine ⟨by simpa using hp, ?_⟩
      intro hin
      have h1 := hin.length_le
      rw [List.length_take] at h1
      omega
    · rw [if_neg hp, Option.map_eq_some'] at h
      obtain ⟨j, hj, hji⟩ := h
      subst hji
      obtain ⟨h1, h2⟩ := ih j hj
      refine ⟨by simpa using h1, ?_⟩
      have e : j + 1 + sub.length - 1 = (j + sub.length - 1) + 1 := by omega
      rw [e, List.take_succ_cons, List.infix_cons_iff]
      rintro (h3 | h3)
      · apply hp
        rw [List.isPrefixOf_iff_prefix]
        have h4 : c :: List.take (j + sub.length - 1) t <+: c :: t :=
          (List.prefix_cons_inj c).mpr (List.take_prefix _ _)
        exact h3.trans h4
      · exact h2 h3

theorem Index_lt (s sub : Str) (hsub : sub ≠ []) (i : Nat) (h : Index s sub = some i) :
    i + sub.length ≤ s.length := by
  have h1 := (Index_some s sub hsub i h).1.length_le
  rw [List.length_drop] at h1
  have : 0 < sub.length := List.length_pos.mpr hsub
  omega

theorem SplitN_one (s : Str) (c : Char) : SplitN s c 1 = [s] := by
  cases s <;> rfl

theorem SplitN_two (s : Str) (c : Char) :
    SplitN s c 2 =
      if c ∈ s then [s.takeWhile (· != c), (s.dropWhile (· != c)).drop 1] else [s] := by
  induction s with
  | nil => simp [SplitN]
  | cons a t ih =>
    by_cases hac : a = c
    · subst hac
      simp [SplitN, SplitN_one, List.takeWhile_cons, List.dropWhile_cons]
    · have hca : ¬ c = a := fun h => hac h.symm
      simp only [SplitN, hac, if_false, ih, List.mem_cons, hca, false_or]
      by_cases hm : c ∈ t
      · simp [hm, List.takeWhile_cons, List.dropWhile_cons, hac]
      · simp [hm]

theorem length_le_byteLen (s : Str) : s.length ≤ byteLen s := by
  induction s with
  | nil => simp [byteLen]
  | cons a t ih =>
    have := Char.utf8Size_pos a
    simp only [byteLen, List.map_cons, List.sum_cons, List.length_cons] at ih ⊢
    omega

theorem byteLen_append (a b : Str) : byteLen (a ++ b) = byteLen a + byteLen b := by
  simp [byteLen]

theorem byteLen_cons (c : Char) (s : Str) : byteLen (c :: s) = c.utf8Size + byteLen s := by
  simp [byteLen]

/-- The byte test of the source and the character test coincide: a value of at least
two bytes that starts and ends with an ASCII quote has at least two characters. -/
theorem two_le_length_of_quoted (v : Str) (q : Char) (hq : q.utf8Size = 1)
    (hb : 2 ≤ byteLen v) (hh : v.head? = some q) (hl : v.getLast? = some q) :
    2 ≤ v.length := by
  match v, hh, hl, hb with
  | [a], hh, _, hb =>
    simp only [List.head?_cons, Option.some.injEq] at hh
    subst hh
    simp [byteLen, hq] at hb
  | _ :: _ :: _, _, _, _ => simp

theorem unquote_wrapped (v : Str) (h2 : 2 ≤ v.length)
    (hq : (v.head? = some '"' ∧ v.getLast? = some '"') ∨
      (v.head? = some '\'' ∧ v.getLast? = some '\'')) :
    unquote v = (v.drop 1).dropLast := by
  have hb : 2 ≤ byteLen v := le_trans h2 (length_le_byteLen v)
  unfold unquote
  rw [if_pos hb]
  rcases hq with ⟨h1, h3⟩ | ⟨h1, h3⟩ <;> simp [h1, h3]

theorem unquote_plain (v : Str)
    (hq : ¬ (2 ≤ v.length ∧ ((v.head? = some '"' ∧ v.getLast? = some '"') ∨
      (v.head? = some '\'' ∧ v.getLast? = some '\'')))) :
    unquote v = v := by
  unfold unquote
  split
  · rename_i hb
    split
    · rename_i hc
      exfalso
      apply hq
      simp only [Bool.or_eq_true, Bool.and_eq_true, beq_iff_eq] at hc
      refine ⟨?_, hc⟩
      rcases hc with ⟨h1, h3⟩ | ⟨h1, h3⟩
      · exact two_le_length_of_quoted v '"' (by decide) hb h1 h3
      · exact two_le_length_of_quoted v '\'' (by decide) hb h1 h3
    · rfl
  · rfl

theorem parseLine_eq (lineNo : Nat) (raw : Str) (hns : isSkipped (TrimSpace raw) = false) :
    parseLine lineNo raw =
      if '=' ∈ stripComment (stripExport (TrimSpace raw)) then
        if TrimSpace (beforeEq (stripComment (stripExport (TrimSpace raw)))) = [] then
          .error (.emptyKey lineNo)
        else
          .ok (some (TrimSpace (beforeEq (stripComment (stripExport (TrimSpace raw)))),
            unquote (TrimSpace (afterEq (stripComment (stripExport (TrimSpace raw)))))))
      else .error (.invalidLine lineNo (stripComment (stripExport (TrimSpace raw)))) := by
  unfold parseLine
  simp only [hns, Bool.false_eq_true, if_false, SplitN_two]
  split_ifs <;> simp_all [beforeEq, afterEq]

theorem parseLine_skipped (lineNo : Nat) (raw : Str) (hs : isSkipped (TrimSpace raw) = true) :
    parseLine lineNo raw = .ok none := by
  unfold parseLine
  simp [hs]

theorem dropCR_part (s : Str) : dropCR s <+: s := by
  unfold dropCR
  split
  · exact List.dropLast_prefix s
  · exact List.prefix_refl s

theorem TrimPrefix_suffix (s pre : Str) : TrimPrefix s pre <:+ s := by
  unfold TrimPrefix
  split
  · exact List.drop_suffix _ _
  · exact List.suffix_refl s

theorem stripExport_part (l : Str) : stripExport l <:+: l := by
  unfold stripExport
  split
  · exact (TrimSpace_part _).trans (TrimPrefix_suffix _ _).isInfix
  · exact List.infix_refl l

theorem stripComment_part (l : Str) : stripComment l <:+: l := by
  unfold stripComment
  split
  · exact (TrimSpace_part _).trans (List.take_prefix _ _).isInfix
  · exact List.infix_refl l

/-- The line that is split at `=` is a contiguous part of the raw line. -/
theorem processed_part (raw : Str) :
    stripComment (stripExport (TrimSpace (dropCR raw))) <:+: raw :=
  (stripComment_part _).trans ((stripExport_part _).trans
    ((TrimSpace_part _).trans (dropCR_part raw).isInfix))

theorem TrimSpace_ws_append (ws : Str) (c : Char) (rest : Str)
    (hws : ∀ a ∈ ws, isSpace a = true) (hc : isSpace c = false) :
    ∃ r, TrimSpace (ws ++ c :: rest) = c :: r := by
  have h1 : (ws ++ c :: rest).dropWhile isSpace = c :: rest := by
    rw [List.dropWhile_append]
    have : ws.dropWhile isSpace = [] := List.dropWhile_eq_nil_iff.mpr hws
    simp [this, List.dropWhile_cons, hc]
  obtain ⟨r, hr⟩ := TrimSpace_cons c rest hc
  refine ⟨r, ?_⟩
  unfold TrimSpace at hr ⊢
  rw [h1]
  have h2 : (c :: rest).dropWhile isSpace = c :: rest := by simp [List.dropWhile_cons, hc]
  rw [h2] at hr
  exact hr

theorem stripExport_of_trimmed (t : Str) (ht : TrimSpace t = t) :
    stripExport t = TrimSpace (TrimPrefix t "export ".toList) := by
  unfold stripExport TrimPrefix
  split
  · rfl
  · exact ht.symm

theorem TrimPrefix_decomp (t pre : Str) :
    (t = TrimPrefix t pre) ∨ (t = pre ++ TrimPrefix t pre) := by
  unfold TrimPrefix
  by_cases h : HasPrefix t pre = true
  · right
    rw [if_pos h]
    unfold HasPrefix at h
    rw [List.isPrefixOf_iff_prefix] at h
    obtain ⟨r, hr⟩ := h
    rw [← hr]
    simp
  · left
    rw [if_neg h]

/-- A trimmed, non-empty line, from which a leading `export ` is removed, cannot leave
only whitespace. -/
theorem not_all_space_after_export (t : Str) (ht : TrimSpace t = t) (hne : t ≠ [])
    (hall : ∀ c ∈ TrimPrefix t "export ".toList, isSpace c = true) : False := by
  have hlast : ∀ c, t.getLast? = some c → isSpace c = false := by
    intro c hc
    rw [← ht] at hc
    exact TrimSpace_last t c hc
  rcases TrimPrefix_decomp t "export ".toList with h | h
  · rw [← h] at hall
    have h0 := hlast (t.getLast hne) (List.getLast?_eq_getLast _ hne)
    have h1 := hall _ (List.getLast_mem hne)
    rw [h0] at h1
    exact absurd h1 (by decide)
  · generalize TrimPrefix t "export ".toList = x at h hall
    subst h
    have hx : ∃ c, ("export ".toList ++ x).getLast? = some c ∧ isSpace c = true := by
      rcases List.eq_nil_or_concat x with hx | ⟨y, c, hx⟩
      · subst hx
        exact ⟨' ', by decide, by decide⟩
      · rw [List.concat_eq_append] at hx
        subst hx
        refine ⟨c, ?_, hall c (by simp)⟩
        rw [← List.append_assoc, List.getLast?_append]
        simp
    obtain ⟨c, hc1, hc2⟩ := hx
    have := hlast c hc1
    rw [this] at hc2
    exact absurd hc2 (by decide)

theorem stripComment_eq_cons (r : Str) : ∃ r2, stripComment ('=' :: r) = '=' :: r2 := by
  unfold stripComment
  cases hi : Index ('=' :: r) " #".toList with
  | none => exact ⟨r, rfl⟩
  | some i =>
    have hp : " #".toList.isPrefixOf ('=' :: r) = false := by
      simp [List.isPrefixOf]
    unfold Index at hi
    rw [hp] at hi
    simp only [Bool.false_eq_true, if_false, Option.map_eq_some'] at hi
    obtain ⟨j, _, hj⟩ := hi
    subst hj
    simp only [List.take_succ_cons]
    exact TrimSpace_cons '=' _ isSpace_eq

theorem takeWhile_dropWhile_eq (x : Str) :
    (x.dropWhile (· != '=') = [] ∧ x.takeWhile (· != '=') = x) ∨
    ∃ rest, x = x.takeWhile (· != '=') ++ '=' :: rest := by
  have h := List.takeWhile_append_dropWhile (· != '=') x
  cases hd : x.dropWhile (· != '=') with
  | nil =>
    left
    rw [hd] at h
    simp only [List.append_nil] at h
    exact ⟨rfl, h⟩
  | cons a rest =>
    right
    have h0 := List.head?_dropWhile_not (· != '=') x
    rw [hd] at h0 h
    simp only [List.head?_cons] at h0
    have ha : a = '=' := by simpa using h0
    subst ha
    exact ⟨rest, h.symm⟩

/-- A line that is not skipped and whose key text is empty is rejected with the
`empty key` error. -/
theorem parseLine_empty_key (lineNo : Nat) (line : Str)
    (hns : isSkipped (TrimSpace line) = false) (hk : keyText line = []) :
    parseLine lineNo line = .error (.emptyKey lineNo) := by
  have ht : TrimSpace (TrimSpace line) = TrimSpace line := TrimSpace_idem line
  have hne : TrimSpace line ≠ [] := by
    intro h0
    rw [h0] at hns
    exact absurd hns (by decide)
  unfold keyText at hk
  rw [TrimSpace_eq_nil_iff] at hk
  unfold beforeEq at hk
  have h1 : ∃ r1, stripExport (TrimSpace line) = '=' :: r1 := by
    rw [stripExport_of_trimmed _ ht]
    rcases takeWhile_dropWhile_eq (TrimPrefix (TrimSpace line) "export ".toList) with
      ⟨_, h2⟩ | ⟨rest, h2⟩
    · rw [h2] at hk
      exact (not_all_space_after_export _ ht hne hk).elim
    · rw [h2]
      exact TrimSpace_ws_append _ '=' rest hk isSpace_eq
  obtain ⟨r1, h1⟩ := h1
  obtain ⟨r2, h2⟩ := stripComment_eq_cons r1
  rw [parseLine_eq lineNo line hns, h1, h2]
  simp [beforeEq, List.takeWhile_cons, TrimSpace_nil]

/-- A line that is not skipped and has no `=` is rejected as an invalid line. -/
theorem parseLine_no_eq (lineNo : Nat) (raw : Str)
    (hns : isSkipped (TrimSpace (dropCR raw)) = false) (hno : '=' ∉ raw) :
    parseLine lineNo (dropCR raw) =
      .error (.invalidLine lineNo (stripComment (stripExport (TrimSpace (dropCR raw))))) := by
  rw [parseLine_eq lineNo _ hns]
  have : '=' ∉ stripComment (stripExport (TrimSpace (dropCR raw))) :=
    fun h => hno ((processed_part raw).subset h)
  rw [if_neg this]

/-! ### The scanning loop -/

theorem scanLoop_cons (raw : Str) (rest : List Str) (n : Nat) (out : GoMap) :
    scanLoop (raw :: rest) n out =
      if maxScanTokenSize ≤ byteLen raw then .error .scan
      else
        match parseLine (n + 1) (dropCR raw) with
        | .error e => .error e
        | .ok none => scanLoop rest (n + 1) out
        | .ok (some (key, val)) => scanLoop rest (n + 1) (mapSet out key val) := by
  rw [scanLoop]

theorem scanLoop_fails_of_bad_line (lines : List Str) (n : Nat) (out : GoMap) (raw : Str)
    (hmem : raw ∈ lines) (hbad : ∀ k, ∃ e, parseLine k (dropCR raw) = .error e) :
    ∃ e, scanLoop lines n out = .error e := by
  induction lines generalizing n out with
  | nil => simp at hmem
  | cons a rest ih =>
    unfold scanLoop
    split_ifs with hlong
    · exact ⟨_, rfl⟩
    · cases hp : parseLine (n + 1) (dropCR a) with
      | error e => exact ⟨e, rfl⟩
      | ok r =>
        have hmem2 : raw ∈ rest := by
          rcases List.mem_cons.mp hmem with h | h
          · subst h
            obtain ⟨e, he⟩ := hbad (n + 1)
            rw [he] at hp
            exact absurd hp (by simp)
          · exact h
        cases r with
        | none => exact ih (n + 1) out hmem2
        | some kv => exact ih (n + 1) _ hmem2

theorem scanLoop_prefix_ok (pre rest : List Str) (n : Nat) (out : GoMap)
    (hpre : ∀ i l, pre[i]? = some l →
      byteLen l < maxScanTokenSize ∧ ∃ r, parseLine (n + i + 1) (dropCR l) = .ok r) :
    ∃ out2, scanLoop (pre ++ rest) n out = scanLoop rest (n + pre.length) out2 := by
  induction pre generalizing n out with
  | nil => exact ⟨out, rfl⟩
  | cons a t ih =>
    obtain ⟨hlen, r, hr⟩ := hpre 0 a (by simp)
    have ht : ∀ i l, t[i]? = some l →
        byteLen l < maxScanTokenSize ∧ ∃ r, parseLine (n + 1 + i + 1) (dropCR l) = .ok r := by
      intro i l hil
      have := hpre (i + 1) l (by simpa using hil)
      have e : n + (i + 1) + 1 = n + 1 + i + 1 := by omega
      rw [e] at this
      exact this
    have e2 : n + (a :: t).length = n + 1 + t.length := by simp; omega
    simp only [List.cons_append]
    rw [scanLoop_cons, if_neg (by omega)]
    simp only [Nat.add_zero] at hr
    rw [hr, e2]
    cases r with
    | none => exact ih (n + 1) out ht
    | some kv => exact ih (n + 1) _ ht

theorem split_at_index (ls : List Str) (i : Nat) (a : Str) (h : ls[i]? = some a) :
    ls = ls.take i ++ a :: ls.drop (i + 1) ∧ (ls.take i).length = i := by
  obtain ⟨hlt, ha⟩ := List.getElem?_eq_some_iff.mp h
  constructor
  · rw [← ha, List.getElem_cons_drop, List.take_append_drop]
  · rw [List.length_take]
    omega

theorem Split_of_not_mem (s : Str) (c : Char) (h : c ∉ s) : Split s c = [s] := by
  induction s with
  | nil => rfl
  | cons a t ih =>
    have hac : ¬ a = c := fun e => h (by simp [e])
    have ht : c ∉ t := fun e => h (List.mem_cons_of_mem _ e)
    simp [Split, hac, ih ht]

theorem byteLen_replicate (n : Nat) (c : Char) :
    byteLen (List.replicate n c) = n * c.utf8Size := by
  induction n with
  | zero => simp [byteLen]
  | succ k ih =>
    rw [List.replicate_succ, byteLen_cons, ih]
    ring

theorem mem_longLine (c : Char) (h : c ∈ longLine) : c = 'A' :=
  List.eq_of_mem_replicate h

theorem longLine_ne_nil : longLine ≠ [] := by
  unfold longLine
  rw [List.replicate_succ]
  exact List.cons_ne_nil _ _

theorem longLine_last (c : Char) (h : longLine.getLast? = some c) : c = 'A' :=
  mem_longLine c (List.mem_of_mem_getLast? h)

theorem dropCR_longLine : dropCR longLine = longLine := by
  unfold dropCR
  rw [if_neg]
  intro h
  exact absurd (longLine_last _ h) (by decide)

theorem TrimSpace_longLine : TrimSpace longLine = longLine := by
  apply TrimSpace_of_ends
  · intro c hc
    rw [mem_longLine c (List.mem_of_mem_head? hc)]
    decide
  · intro c hc
    rw [longLine_last c hc]
    decide

theorem rawLines_longLine : rawLines longLine = [longLine] := by
  unfold rawLines
  have h : Split longLine '\n' = [longLine] :=
    Split_of_not_mem _ _ (fun h => absurd (mem_longLine _ h) (by decide))
  simp only [h, List.getLast?_singleton, Option.some.injEq]
  rw [if_neg longLine_ne_nil]

/-! ### The line rules of `ParseFile` -/

theorem part_take_of_head_drop (l sub : Str) (j n : Nat) (h : sub <+: l.drop j)
    (hn : j + sub.length ≤ n) : sub <:+: l.take n := by
  obtain ⟨r, hr⟩ := h
  by_cases hj : j ≤ l.length
  · have hlen : (l.take j).length = j := by rw [List.length_take]; omega
    have hl : l = (l.take j ++ sub) ++ r := by
      rw [List.append_assoc, hr, List.take_append_drop]
    have h1 : l.take (j + sub.length) = l.take j ++ sub := by
      conv_lhs => rw [hl]
      exact List.take_left' (by rw [List.length_append, hlen])
    have h2 : l.take j ++ sub <+: l.take n := by
      rw [← h1]
      exact List.take_prefix_take_left l hn
    exact (List.suffix_append (l.take j) sub).isInfix.trans h2.isInfix
  · have h0 : l.drop j = [] := List.drop_eq_nil_of_le (by omega)
    rw [h0] at hr
    rw [(List.append_eq_nil.mp hr).1]
    exact List.nil_infix

/-- The first occurrence of `sub` is where `Index` finds it. -/
theorem Index_first (l sub a b : Str) (hsub : sub ≠ []) (hl : l = a ++ sub ++ b)
    (hfirst : ¬ sub <:+: l.take (a.length + sub.length - 1)) :
    Index l sub = some a.length := by
  have hlen : 0 < sub.length := List.length_pos.mpr hsub
  have hocc : sub <+: l.drop a.length := by
    rw [hl, List.append_assoc, List.drop_left]
    exact List.prefix_append sub b
  cases hi : Index l sub with
  | none =>
    exfalso
    exact (Index_eq_none_iff l sub).mp hi ⟨a, b, hl.symm⟩
  | some i =>
    obtain ⟨h1, h2⟩ := Index_some l sub hsub i hi
    rcases Nat.lt_trichotomy i a.length with hlt | heq | hgt
    · exact absurd (part_take_of_head_drop l sub i _ h1 (by omega)) hfirst
    · rw [heq]
    · exact absurd (part_take_of_head_drop l sub a.length _ hocc (by omega)) h2

/-- C5: on a line that is not skipped, with `l` the line as it stands when the comment
rule applies (trimmed, a leading `export ` removed), `ParseFile` cuts the inline comment
exactly at the first occurrence of space-`#`: when `l` is `a`, space-`#`, `b` and no
space-`#` starts before that one, the loop body yields what the trimmed `a` alone yields;
when `l` has no space-`#` nothing is cut and the loop body yields what the whole of `l`
yields, so the whole trimmed text after the first `=` is stored (quotes apart), as for the
URL `http://h/p#frag`; a comment after a value is dropped, as in `K=value # comment`. -/
theorem parseLine_cuts_at_first_space_hash (lineNo : Nat) (raw l : Str)
    (hns : isSkipped (TrimSpace raw) = false) (hl : l = stripExport (TrimSpace raw)) :
    (∀ a b : Str, l = a ++ " #".toList ++ b → ¬ " #".toList <:+: a ++ " ".toList →
      parseLine lineNo raw = lineEntry lineNo (TrimSpace a)) ∧
    (¬ " #".toList <:+: l → parseLine lineNo raw = lineEntry lineNo l) ∧
    ParseFile (some "KEY=http://h/p#frag".toList)
      = .ok [("KEY".toList, "http://h/p#frag".toList)] ∧
    ParseFile (some "K=value # comment\nU=http://h/p#frag # see #1\n".toList)
      = .ok [("K".toList, "value".toList), ("U".toList, "http://h/p#frag".toList)] := by
  refine ⟨?_, ?_, by decide, by decide⟩
  · intro a b hab hfirst
    have hi : Index l " #".toList = some a.length := by
      apply Index_first l " #".toList a b (by decide) hab
      have e : a.length + " #".toList.length - 1 = a.length + 1 := rfl
      rw [e, hab]
      have e2 : a ++ " #".toList ++ b = (a ++ " ".toList) ++ ('#' :: b) := by simp
      rw [e2, List.take_left' (by simp)]
      exact hfirst
    have hs : stripComment l = TrimSpace a := by
      unfold stripComment
      rw [hi]
      simp only
      rw [hab, List.append_assoc, List.take_left]
    rw [parseLine_eq lineNo raw hns, ← hl, hs]
    rfl
  · intro hno
    have hi := (Index_eq_none_iff _ _).mpr hno
    have hs : stripComment l = l := by
      unfold stripComment
      rw [hi]
    rw [parseLine_eq lineNo raw hns, ← hl, hs]
    rfl

theorem parseLine_cuts_at_first_space_hash_witness :
    isSkipped (TrimSpace "export K=a#b #c #d".toList) = false ∧
    "K=a#b #c #d".toList = stripExport (TrimSpace "export K=a#b #c #d".toList) ∧
    lineEntry 1 (TrimSpace "K=a#b".toList) = .ok (some ("K".toList, "a#b".toList)) ∧
    parseLine 1 "export K=a#b #c #d".toList = lineEntry 1 (TrimSpace "K=a#b".toList) :=
  ⟨by decide, by decide, by decide,
    (parseLine_cuts_at_first_space_hash 1 "export K=a#b #c #d".toList
      "K=a#b #c #d".toList (by decide) (by decide)).1 "K=a#b".toList "c #d".toList
      (by decide) (by decide)⟩

/-- C6: for a line that `ParseFile` accepts with the entry `(key, val)`, with `v` the
trimmed text after the first `=`: when `v` has at least two characters and starts and
ends with the same quote character (both double or both single), the stored value is `v`
without its first and its last character; in every other case the stored value is `v`. -/
theorem parseLine_strips_one_quote_layer (lineNo : Nat) (raw key val : Str)
    (h : parseLine lineNo raw = .ok (some (key, val))) :
    (2 ≤ (valueText raw).length ∧
        (((valueText raw).head? = some '"' ∧ (valueText raw).getLast? = some '"') ∨
          ((valueText raw).head? = some '\'' ∧ (valueText raw).getLast? = some '\'')) →
      val = ((valueText raw).drop 1).dropLast) ∧
    (¬ (2 ≤ (valueText raw).length ∧
        (((valueText raw).head? = some '"' ∧ (valueText raw).getLast? = some '"') ∨
          ((valueText raw).head? = some '\'' ∧ (valueText raw).getLast? = some '\''))) →
      val = valueText raw) := by
  have hns : isSkipped (TrimSpace raw) = false := by
    cases hs : isSkipped (TrimSpace raw) with
    | false => rfl
    | true => rw [parseLine_skipped lineNo raw hs] at h; simp at h
  rw [parseLine_eq lineNo raw hns] at h
  have hv : val = unquote (valueText raw) := by
    unfold valueText
    split_ifs at h
    simp only [Except.ok.injEq, Option.some.injEq, Prod.mk.injEq] at h
    exact h.2.symm
  constructor
  · rintro ⟨h2, hq⟩
    rw [hv, unquote_wrapped _ h2 hq]
  · intro hq
    rw [hv, unquote_plain _ hq]

theorem parseLine_strips_one_quote_layer_witness :
    parseLine 3 " K = \"a\"b\" ".toList = .ok (some ("K".toList, "a\"b".toList)) ∧
    "a\"b".toList = ((valueText " K = \"a\"b\" ".toList).drop 1).dropLast :=
  ⟨by decide,
    (parseLine_strips_one_quote_layer 3 " K = \"a\"b\" ".toList "K".toList "a\"b".toList
      (by decide)).1 ⟨by decide, Or.inl ⟨by decide, by decide⟩⟩⟩

/-! ### Failures of `ParseFile` -/

/-- C7 fails as stated at a line of 65536 bytes: the line is line 1 of the text, it is
not skipped and has no `=`, no line comes before it, and `ParseFile` fails with the scan
error, which cites no line, instead of the parse error for line 1. -/
theorem ParseFile_long_line_scan_error :
    (rawLines longLine)[1 - 1]? = some longLine ∧
    isSkipped (TrimSpace (dropCR longLine)) = false ∧
    '=' ∉ longLine ∧
    ParseFile (some longLine) = .error .scan ∧
    ParseFile (some longLine) ≠
      .error (.invalidLine 1 (stripComment (stripExport (TrimSpace (dropCR longLine))))) := by
  have hb : maxScanTokenSize ≤ byteLen longLine := by
    unfold longLine
    rw [byteLen_replicate]
    decide
  have hp : ParseFile (some longLine) = .error .scan := by
    unfold ParseFile
    simp only [rawLines_longLine]
    rw [scanLoop_cons, if_pos hb]
  refine ⟨by rw [rawLines_longLine]; rfl, ?_, ?_, hp, ?_⟩
  · rw [dropCR_longLine, TrimSpace_longLine]
    unfold isSkipped HasPrefix longLine
    rw [List.replicate_succ]
    decide
  · intro h
    exact absurd (mem_longLine _ h) (by decide)
  · rw [hp]
    simp

/-- C7, amended: when line `n` of the text (counted from 1) is not skipped as blank or
comment and contains no `=`, then (a) if the line is shorter than 65536 bytes and every
earlier line is delivered by the scanner and parses, `ParseFile` fails with the parse
error that cites line `n`; (b) in every case `ParseFile` returns no mapping. -/
theorem ParseFile_line_without_eq (text : Str) (n : Nat) (raw : Str)
    (hn : 1 ≤ n) (hline : (rawLines text)[n - 1]? = some raw)
    (hns : isSkipped (TrimSpace (dropCR raw)) = false) (hno : '=' ∉ raw) :
    (byteLen raw < maxScanTokenSize →
      (∀ i l, i < n - 1 → (rawLines text)[i]? = some l →
        byteLen l < maxScanTokenSize ∧ ∃ r, parseLine (i + 1) (dropCR l) = .ok r) →
      ParseFile (some text) =
        .error (.invalidLine n (stripComment (stripExport (TrimSpace (dropCR raw)))))) ∧
    (∀ m, ParseFile (some text) ≠ .ok m) := by
  constructor
  · intro hlen hearly
    obtain ⟨hsplit, hlenpre⟩ := split_at_index _ _ _ hline
    unfold ParseFile
    simp only []
    rw [hsplit]
    have hpre : ∀ i l, ((rawLines text).take (n - 1))[i]? = some l →
        byteLen l < maxScanTokenSize ∧ ∃ r, parseLine (0 + i + 1) (dropCR l) = .ok r := by
      intro i l hil
      rw [List.getElem?_take] at hil
      split_ifs at hil with hlt
      have := hearly i l hlt hil
      simpa using this
    obtain ⟨out2, ho⟩ := scanLoop_prefix_ok _ (raw :: (rawLines text).drop (n - 1 + 1)) 0 [] hpre
    rw [ho, hlenpre, scanLoop_cons, if_neg (by omega)]
    have e : 0 + (n - 1) + 1 = n := by omega
    rw [e, parseLine_no_eq n raw hns hno]
  · intro m hm
    have hmem : raw ∈ rawLines text := List.getElem?_mem hline
    obtain ⟨e, he⟩ := scanLoop_fails_of_bad_line (rawLines text) 0 [] raw hmem
      (fun k => ⟨_, parseLine_no_eq k raw hns hno⟩)
    unfold ParseFile at hm
    simp only [] at hm
    rw [he] at hm
    exact absurd hm (by simp)

theorem ParseFile_line_without_eq_witness :
    (rawLines "A=1\n# c\nexport B\nC=2\n".toList)[3 - 1]? = some "export B".toList ∧
    ParseFile (some "A=1\n# c\nexport B\nC=2\n".toList)
      = .error (.invalidLine 3 "B".toList) :=
  ⟨by decide,
    (ParseFile_line_without_eq "A=1\n# c\nexport B\nC=2\n".toList 3 "export B".toList
      (by decide) (by decide) (by decide) (by decide)).1 (by decide)
      (fun i l hi hl => by
        have h2 : i = 0 ∨ i = 1 := by omega
        rcases h2 with h | h <;> subst h <;>
          simp only [show rawLines "A=1\n# c\nexport B\nC=2\n".toList
            = ["A=1".toList, "# c".toList, "export B".toList, "C=2".toList] from by decide] at hl <;>
          simp only [List.getElem?_cons_zero, List.getElem?_cons_succ, Option.some.injEq] at hl <;>
          subst hl
        · exact ⟨by decide, some ("A".toList, "1".toList), by decide⟩
        · exact ⟨by decide, none, by decide⟩)⟩

/-- C8: a text that has, at any position, a line that is not skipped and whose key (the
text before the first `=`, after removal of a leading `export ` and trimming) is empty,
makes `ParseFile` fail: it returns an error and no mapping. -/
theorem ParseFile_empty_key_fails (text raw : Str) (hmem : raw ∈ rawLines text)
    (hns : isSkipped (TrimSpace (dropCR raw)) = false)
    (hk : keyText (dropCR raw) = []) :
    ∃ e, ParseFile (some text) = .error e := by
  unfold ParseFile
  exact scanLoop_fails_of_bad_line (rawLines text) 0 [] raw hmem
    (fun k => ⟨_, parseLine_empty_key k _ hns hk⟩)

theorem ParseFile_empty_key_fails_witness :
    "export  = x".toList ∈ rawLines "A=1\nexport  = x\nB=2\n".toList ∧
    keyText (dropCR "export  = x".toList) = [] ∧
    ∃ e, ParseFile (some "A=1\nexport  = x\nB=2\n".toList) = .error e :=
  ⟨by decide, by decide,
    ParseFile_empty_key_fails "A=1\nexport  = x\nB=2\n".toList "export  = x".toList
      (by decide) (by decide) (by decide)⟩

/-! ### `DetectRepoFromGitRemote` -/

theorem HasSuffix_iff (s suf : Str) : HasSuffix s suf = true ↔ suf <:+ s := by
  unfold HasSuffix
  rw [List.isPrefixOf_iff_prefix, List.reverse_prefix]

theorem TrimSuffix_append (x suf : Str) : TrimSuffix (x ++ suf) suf = x := by
  unfold TrimSuffix
  rw [if_pos ((HasSuffix_iff _ _).mpr (List.suffix_append x suf))]
  simp

theorem TrimSuffix_of_not (s suf : Str) (h : ¬ suf <:+ s) : TrimSuffix s suf = s := by
  unfold TrimSuffix
  rw [if_neg (fun h2 => h ((HasSuffix_iff _ _).mp h2))]

theorem TrimSuffix_head (s suf : Str) : TrimSuffix s suf <+: s := by
  unfold TrimSuffix
  split
  · exact List.take_prefix _ _
  · exact List.prefix_refl s

theorem HasPrefix_append (pre r : Str) : HasPrefix (pre ++ r) pre = true := by
  unfold HasPrefix
  rw [List.isPrefixOf_iff_prefix]
  exact List.prefix_append pre r

theorem TrimPrefix_append (pre r : Str) : TrimPrefix (pre ++ r) pre = r := by
  unfold TrimPrefix
  rw [if_pos (HasPrefix_append pre r)]
  simp

theorem HasPrefix_iff (s pre : Str) : HasPrefix s pre = true ↔ pre <+: s := by
  unfold HasPrefix
  rw [List.isPrefixOf_iff_prefix]

theorem HasPrefix_false_iff (s pre : Str) : HasPrefix s pre = false ↔ ¬ pre <+: s := by
  rw [← HasPrefix_iff, Bool.not_eq_true]

theorem Split_append_sep (a b : Str) (c : Char) (h : c ∉ a) :
    Split (a ++ c :: b) c = a :: Split b c := by
  induction a with
  | nil => simp [Split]
  | cons x t ih =>
    have hxc : ¬ x = c := fun e => h (by simp [e])
    have ht : c ∉ t := fun e => h (List.mem_cons_of_mem _ e)
    simp [Split, hxc, ih ht]

theorem Split_owner_repo (owner repo : Str) (ho : '/' ∉ owner) (hr : '/' ∉ repo) :
    Split (owner ++ "/".toList ++ repo) '/' = [owner, repo] := by
  have e : owner ++ "/".toList ++ repo = owner ++ '/' :: repo := by simp
  rw [e, Split_append_sep owner repo '/' ho, Split_of_not_mem repo '/' hr]

theorem https_not_ssh (r : Str) :
    HasPrefix ("https://github.com/".toList ++ r) "git@github.com:".toList = false := rfl

/-- The outcome of the parsing once the URL, trimmed and without `.git`, is a known
prefix followed by `path`. -/
theorem parseRemoteURL_of_path (out path : Str)
    (h : TrimSuffix (TrimSpace out) ".git".toList = "git@github.com:".toList ++ path ∨
      TrimSuffix (TrimSpace out) ".git".toList = "https://github.com/".toList ++ path) :
    parseRemoteURL out =
      match Split path '/' with
      | [p0, p1] => .ok (p0 ++ "/".toList ++ p1)
      | _ => .error (.unparsable (TrimSuffix (TrimSpace out) ".git".toList)) := by
  unfold parseRemoteURL
  rcases h with h | h
  · simp only [h, HasPrefix_append, if_true, TrimPrefix_append]
  · simp only [h, https_not_ssh, HasPrefix_append, if_true, TrimPrefix_append,
      Bool.false_eq_true, if_false]

theorem TrimSpace_url (pre : Str) (a : Char) (owner repo tail : Str) (b : Char)
    (hpre : isSpace a = false) (hb : isSpace b = false) :
    TrimSpace (a :: pre ++ owner ++ "/".toList ++ repo ++ tail ++ [b])
      = a :: pre ++ owner ++ "/".toList ++ repo ++ tail ++ [b] := by
  apply TrimSpace_of_ends
  · intro c hc
    simp only [List.cons_append, List.head?_cons, Option.some.injEq] at hc
    rw [← hc]; exact hpre
  · intro c hc
    rw [List.getLast?_append] at hc
    simp only [List.getLast?_singleton, Option.or_some, Option.some.injEq] at hc
    rw [← hc]; exact hb

theorem TrimSpace_url_bare (pre : Str) (a : Char) (owner repo : Str)
    (hpre : isSpace a = false) (hr : ∀ c ∈ repo, isSpace c = false) :
    TrimSpace (a :: pre ++ owner ++ "/".toList ++ repo)
      = a :: pre ++ owner ++ "/".toList ++ repo := by
  apply TrimSpace_of_ends
  · intro c hc
    simp only [List.cons_append, List.head?_cons, Option.some.injEq] at hc
    rw [← hc]; exact hpre
  · intro c hc
    rcases List.eq_nil_or_concat repo with h | ⟨y, d, h⟩
    · subst h
      rw [List.append_nil, List.getLast?_append] at hc
      simp only [String.toList, List.getLast?_singleton, Option.or_some,
        Option.some.injEq] at hc
      rw [← hc]; decide
    · rw [List.concat_eq_append] at h
      subst h
      rw [← List.append_assoc, List.getLast?_append] at hc
      simp only [List.getLast?_singleton, Option.or_some, Option.some.injEq] at hc
      rw [← hc]
      exact hr d (by simp)

theorem no_git_suffix (x repo : Str) (h : ¬ ".git".toList <:+ repo) :
    ¬ ".git".toList <:+ x ++ "/".toList ++ repo := by
  intro hs
  have h2 : '/' :: repo <:+ x ++ "/".toList ++ repo := by
    refine ⟨x, ?_⟩
    simp
  rcases List.suffix_or_suffix_of_suffix hs h2 with h3 | h3
  · rw [List.suffix_cons_iff] at h3
    rcases h3 with h3 | h3
    · have : (".git".toList).head? = ('/' :: repo).head? := by rw [h3]
      simp at this
    · exact h h3
  · have : '/' ∈ ".git".toList := h3.subset (List.mem_cons_self _ _)
    exact absurd this (by decide)

/-- C9 fails as stated for a repository name that itself ends in `.git`: the URL without
a further `.git` loses that ending, and the result is not `owner/repo`. -/
theorem DetectRepo_repo_named_dot_git :
    '/' ∉ "x.git".toList ∧ (∀ c ∈ "x.git".toList, isSpace c = false) ∧
    '/' ∉ "o".toList ∧ (∀ c ∈ "o".toList, isSpace c = false) ∧
    DetectRepoFromGitRemote
        (some ("git@github.com:".toList ++ "o".toList ++ "/".toList ++ "x.git".toList))
      = .ok "o/x".toList ∧
    DetectRepoFromGitRemote
        (some ("git@github.com:".toList ++ "o".toList ++ "/".toList ++ "x.git".toList))
      ≠ .ok ("o".toList ++ "/".toList ++ "x.git".toList) := by
  decide

/-- C9, amended: for every owner and repository name without `/` and without
whitespace, the SSH and HTTPS URLs that end in `.git` yield `owner/repo`, and so do the
same URLs without the trailing `.git` when the repository name does not itself end in
`.git`; the two examples of the specification hold; every URL that, trimmed, starts with
neither `git@github.com:` nor `https://github.com/` fails; and every URL of these styles
fails when its path, split at `/`, is not made of exactly two pieces. -/
theorem DetectRepo_owner_repo :
    (∀ owner repo : Str, '/' ∉ owner → '/' ∉ repo →
      (∀ c ∈ owner, isSpace c = false) → (∀ c ∈ repo, isSpace c = false) →
      DetectRepoFromGitRemote (some ("git@github.com:".toList ++ owner ++ "/".toList ++ repo
          ++ ".git".toList)) = .ok (owner ++ "/".toList ++ repo) ∧
      DetectRepoFromGitRemote (some ("https://github.com/".toList ++ owner ++ "/".toList ++ repo
          ++ ".git".toList)) = .ok (owner ++ "/".toList ++ repo) ∧
      (¬ ".git".toList <:+ repo →
        DetectRepoFromGitRemote (some ("git@github.com:".toList ++ owner ++ "/".toList ++ repo))
          = .ok (owner ++ "/".toList ++ repo) ∧
        DetectRepoFromGitRemote (some ("https://github.com/".toList ++ owner ++ "/".toList ++ repo))
          = .ok (owner ++ "/".toList ++ repo))) ∧
    DetectRepoFromGitRemote (some "git@github.com:acme/widgets.git".toList)
      = .ok "acme/widgets".toList ∧
    DetectRepoFromGitRemote (some "https://github.com/acme/widgets".toList)
      = .ok "acme/widgets".toList ∧
    (∀ out : Str, HasPrefix (TrimSpace out) "git@github.com:".toList = false →
      HasPrefix (TrimSpace out) "https://github.com/".toList = false →
      ∃ e, DetectRepoFromGitRemote (some out) = .error e) ∧
    (∀ out path : Str,
      (TrimSuffix (TrimSpace out) ".git".toList = "git@github.com:".toList ++ path ∨
        TrimSuffix (TrimSpace out) ".git".toList = "https://github.com/".toList ++ path) →
      (Split path '/').length ≠ 2 →
      ∃ e, DetectRepoFromGitRemote (some out) = .error e) := by
  refine ⟨?_, by decide, by decide, ?_, ?_⟩
  · intro owner repo ho hr _ hrs
    have key : ∀ (a : Char) (pre : Str), isSpace a = false →
        (a :: pre = "git@github.com:".toList ∨ a :: pre = "https://github.com/".toList) →
        parseRemoteURL (a :: pre ++ owner ++ "/".toList ++ repo ++ ".git".toList)
          = .ok (owner ++ "/".toList ++ repo) ∧
        (¬ ".git".toList <:+ repo →
          parseRemoteURL (a :: pre ++ owner ++ "/".toList ++ repo)
            = .ok (owner ++ "/".toList ++ repo)) := by
      intro a pre ha hp
      constructor
      · have h1 : TrimSpace (a :: pre ++ owner ++ "/".toList ++ repo ++ ".git".toList)
            = a :: pre ++ owner ++ "/".toList ++ repo ++ ".git".toList := by
          have := TrimSpace_url pre a owner repo ".gi".toList 't' ha (by decide)
          simpa using this
        have h2 : TrimSuffix (TrimSpace (a :: pre ++ owner ++ "/".toList ++ repo ++ ".git".toList))
            ".git".toList = a :: pre ++ (owner ++ "/".toList ++ repo) := by
          rw [h1, TrimSuffix_append]
          simp
        rw [parseRemoteURL_of_path _ (owner ++ "/".toList ++ repo)
          (by rcases hp with hp | hp <;> rw [h2, hp] <;> simp),
          Split_owner_repo owner repo ho hr]
      · intro hng
        have h1 := TrimSpace_url_bare pre a owner repo ha hrs
        have h2 : TrimSuffix (TrimSpace (a :: pre ++ owner ++ "/".toList ++ repo))
            ".git".toList = a :: pre ++ (owner ++ "/".toList ++ repo) := by
          rw [h1, TrimSuffix_of_not _ _ (no_git_suffix _ repo hng)]
          simp
        rw [parseRemoteURL_of_path _ (owner ++ "/".toList ++ repo)
          (by rcases hp with hp | hp <;> rw [h2, hp] <;> simp),
          Split_owner_repo owner repo ho hr]
    have k1 := key 'g' "it@github.com:".toList (by decide) (Or.inl rfl)
    have k2 := key 'h' "ttps://github.com/".toList (by decide) (Or.inr rfl)
    exact ⟨k1.1, k2.1, fun hng => ⟨k1.2 hng, k2.2 hng⟩⟩
  · intro out h1 h2
    have hp : ∀ pre : Str, HasPrefix (TrimSpace out) pre = false →
        HasPrefix (TrimSuffix (TrimSpace out) ".git".toList) pre = false := by
      intro pre hpre
      rw [HasPrefix_false_iff] at hpre ⊢
      exact fun h => hpre (h.trans (TrimSuffix_head _ _))
    refine ⟨.unsupported (TrimSuffix (TrimSpace out) ".git".toList), ?_⟩
    simp only [DetectRepoFromGitRemote, parseRemoteURL, hp _ h1, hp _ h2,
      Bool.false_eq_true, if_false]
  · intro out path h hlen
    refine ⟨.unparsable (TrimSuffix (TrimSpace out) ".git".toList), ?_⟩
    simp only [DetectRepoFromGitRemote]
    rw [parseRemoteURL_of_path out path h]
    split
    · rename_i p0 p1 heq
      rw [heq] at hlen
      exact absurd rfl hlen
    · rfl

theorem DetectRepo_owner_repo_witness :
    DetectRepoFromGitRemote (some ("https://github.com/".toList ++ "pandanirio".toList
        ++ "/".toList ++ "gh-manage-env".toList))
      = .ok ("pandanirio".toList ++ "/".toList ++ "gh-manage-env".toList) ∧
    (∃ e, DetectRepoFromGitRemote (some "git@gitlab.com:acme/widgets.git\n".toList) = .error e) ∧
    (∃ e, DetectRepoFromGitRemote (some "https://github.com/acme/widgets/tree\n".toList)
      = .error e) :=
  ⟨((DetectRepo_owner_repo.1 "pandanirio".toList "gh-manage-env".toList (by decide) (by decide)
      (by decide) (by decide)).2.2 (by decide)).2,
    DetectRepo_owner_repo.2.2.2.1 "git@gitlab.com:acme/widgets.git\n".toList (by decide)
      (by decide),
    DetectRepo_owner_repo.2.2.2.2 "https://github.com/acme/widgets/tree\n".toList
      "acme/widgets/tree".toList (Or.inr (by decide)) (by decide)⟩

/-! ### Go maps -/

theorem mapSet_of_not_mem (m : GoMap) (k v : Str) (h : k ∉ mapKeys m) :
    mapSet m k v = m ++ [(k, v)] := by
  induction m with
  | nil => rfl
  | cons a t ih =>
    obtain ⟨k2, v2⟩ := a
    have h1 : ¬ k2 = k := fun e => h (by simp [mapKeys, e])
    have h2 : k ∉ mapKeys t := fun e => h (by simp only [mapKeys, List.map_cons] at e ⊢; simp [e])
    simp [mapSet, h1, ih h2]

theorem mapSetAll_nodup (m l : List (Str × Str)) (h : (mapKeys (m ++ l)).Nodup) :
    mapSetAll m l = m ++ l := by
  induction l generalizing m with
  | nil => simp [mapSetAll]
  | cons a t ih =>
    obtain ⟨k, v⟩ := a
    have hk : k ∉ mapKeys m := by
      intro hm
      simp only [mapKeys, List.map_append, List.map_cons] at h hm
      rw [List.nodup_append] at h
      exact h.2.2 hm (List.mem_cons_self _ _)
    have e : m ++ (k, v) :: t = (m ++ [(k, v)]) ++ t := by simp
    have := ih (m ++ [(k, v)]) (by rw [← e]; exact h)
    simp only [mapSetAll, List.foldl_cons] at this ⊢
    rw [mapSet_of_not_mem m k v hk, this, e]

theorem mapGet_eq_some_iff (l : GoMap) (h : (mapKeys l).Nodup) (k v : Str) :
    mapGet l k = some v ↔ (k, v) ∈ l := by
  induction l with
  | nil => simp [mapGet]
  | cons a t ih =>
    obtain ⟨k2, v2⟩ := a
    simp only [mapKeys, List.map_cons, List.nodup_cons] at h
    by_cases hk : k2 = k
    · subst hk
      simp only [mapGet, if_true, Option.some.injEq, List.mem_cons, Prod.mk.injEq, true_and]
      constructor
      · exact fun e => Or.inl e.symm
      · rintro (e | e)
        · exact e.symm
        · exact absurd (List.mem_map_of_mem Prod.fst e) h.1
    · simp only [mapGet, hk, if_false, List.mem_cons, Prod.mk.injEq]
      rw [ih h.2]
      constructor
      · exact fun e => Or.inr e
      · rintro (e | e)
        · exact absurd e.1.symm hk
        · exact e

theorem mapGet_isSome_iff (l : GoMap) (k : Str) : (mapGet l k).isSome = true ↔ k ∈ mapKeys l := by
  induction l with
  | nil => simp [mapGet, mapKeys]
  | cons a t ih =>
    obtain ⟨k2, v2⟩ := a
    by_cases hk : k2 = k
    · subst hk
      simp [mapGet, mapKeys]
    · have hk2 : ¬ k = k2 := fun e => hk e.symm
      simp only [mapGet, hk, if_false, ih, mapKeys, List.map_cons, List.mem_cons, hk2, false_or]

/-! ### Classification -/

theorem classify_fold (p : Str) (keep : Bool) (es : List (Str × Str)) (acc : Classified) :
    es.foldl (classifyStep p keep) acc =
      ⟨mapSetAll acc.secrets (secretPart p keep es), mapSetAll acc.vars (varPart p keep es)⟩ := by
  induction es generalizing acc with
  | nil => rfl
  | cons a t ih =>
    rw [List.foldl_cons, ih]
    by_cases h : HasPrefix a.1 p = true
    · simp [classifyStep, h, secretPart, varPart, mapSetAll]
    · simp [classifyStep, h, secretPart, varPart, mapSetAll]

theorem remoteName_secret (p : Str) (keep : Bool) (rest : Str) :
    remoteName p keep (p ++ rest) = if keep then p ++ rest else rest := by
  unfold remoteName
  rw [HasPrefix_append, TrimPrefix_append]
  cases keep <;> simp

theorem remoteName_variable (p : Str) (keep : Bool) (k : Str) (h : HasPrefix k p = false) :
    remoteName p keep k = k := by
  unfold remoteName
  simp [h]

/-- Two keys that are routed to the same mapping and get the same remote name are the
same key. -/
theorem remoteName_inj (p : Str) (keep : Bool) (k1 k2 : Str)
    (hr : HasPrefix k1 p = HasPrefix k2 p)
    (hn : remoteName p keep k1 = remoteName p keep k2) : k1 = k2 := by
  cases h1 : HasPrefix k1 p with
  | false =>
    rw [h1] at hr
    rw [remoteName_variable p keep k1 h1, remoteName_variable p keep k2 hr.symm] at hn
    exact hn
  | true =>
    rw [h1] at hr
    obtain ⟨r1, e1⟩ := (HasPrefix_iff _ _).mp h1
    obtain ⟨r2, e2⟩ := (HasPrefix_iff _ _).mp hr.symm
    subst e1 e2
    rw [remoteName_secret, remoteName_secret] at hn
    cases keep with
    | true => simpa using hn
    | false =>
      simp only [Bool.false_eq_true, if_false] at hn
      rw [hn]

theorem secretPart_keys_nodup (p : Str) (keep : Bool) (es : List (Str × Str))
    (h : (mapKeys es).Nodup) : (mapKeys (secretPart p keep es)).Nodup := by
  unfold mapKeys secretPart at *
  rw [List.map_map]
  have h1 : (es.filter (fun kv => HasPrefix kv.1 p)).Nodup :=
    (List.Nodup.of_map _ h).filter _
  refine List.Nodup.map_on ?_ h1
  intro x hx y hy hxy
  rw [List.mem_filter] at hx hy
  simp only [Function.comp] at hxy
  have hk : x.1 = y.1 := remoteName_inj p keep x.1 y.1 (by
    have e1 := hx.2
    have e2 := hy.2
    simp only at e1 e2
    rw [e1, e2]) hxy
  exact List.inj_on_of_nodup_map h hx.1 hy.1 hk

theorem varPart_keys_nodup (p : Str) (keep : Bool) (es : List (Str × Str))
    (h : (mapKeys es).Nodup) : (mapKeys (varPart p keep es)).Nodup := by
  unfold mapKeys varPart at *
  rw [List.map_map]
  have h1 : (es.filter (fun kv => !HasPrefix kv.1 p)).Nodup :=
    (List.Nodup.of_map _ h).filter _
  refine List.Nodup.map_on ?_ h1
  intro x hx y hy hxy
  rw [List.mem_filter] at hx hy
  simp only [Function.comp] at hxy
  have e1 := hx.2
  have e2 := hy.2
  simp only [Bool.not_eq_true'] at e1 e2
  have hk : x.1 = y.1 := remoteName_inj p keep x.1 y.1 (by rw [e1, e2]) hxy
  exact List.inj_on_of_nodup_map h hx.1 hy.1 hk

/-- On a map (pairwise distinct keys), visited in any order, the loop produces exactly
the routed entries: no assignment overwrites another. -/
theorem classify_of_nodup (p : Str) (keep : Bool) (es : List (Str × Str))
    (h : (mapKeys es).Nodup) :
    classify p keep es = ⟨secretPart p keep es, varPart p keep es⟩ := by
  unfold classify
  rw [classify_fold]
  simp only
  rw [mapSetAll_nodup [] _ (by simpa using secretPart_keys_nodup p keep es h),
    mapSetAll_nodup [] _ (by simpa using varPart_keys_nodup p keep es h)]
  simp

theorem mem_secretPart (p : Str) (keep : Bool) (es : List (Str × Str)) (name val : Str) :
    (name, val) ∈ secretPart p keep es ↔
      ∃ rest, (p ++ rest, val) ∈ es ∧ name = (if keep then p ++ rest else rest) := by
  unfold secretPart
  simp only [List.mem_map, List.mem_filter, Prod.mk.injEq, Prod.exists]
  constructor
  · rintro ⟨k, v, ⟨hm, hp⟩, hn, hv⟩
    obtain ⟨rest, e⟩ := (HasPrefix_iff _ _).mp hp
    subst e hv
    exact ⟨rest, hm, by rw [← hn, remoteName_secret]⟩
  · rintro ⟨rest, hm, hn⟩
    exact ⟨p ++ rest, val, ⟨hm, HasPrefix_append p rest⟩, by rw [hn, remoteName_secret], rfl⟩

theorem mem_varPart (p : Str) (keep : Bool) (es : List (Str × Str)) (name val : Str) :
    (name, val) ∈ varPart p keep es ↔ (name, val) ∈ es ∧ ¬ p <+: name := by
  unfold varPart
  simp only [List.mem_map, List.mem_filter, Prod.mk.injEq, Prod.exists, Bool.not_eq_true',
    HasPrefix_false_iff]
  constructor
  · rintro ⟨k, v, ⟨hm, hp⟩, hn, hv⟩
    rw [remoteName_variable p keep k ((HasPrefix_false_iff _ _).mpr hp)] at hn
    subst hn hv
    exact ⟨hm, hp⟩
  · rintro ⟨hm, hp⟩
    exact ⟨name, val, ⟨hm, hp⟩,
      remoteName_variable p keep name ((HasPrefix_false_iff _ _).mpr hp), rfl⟩

theorem classify_get (m es : List (Str × Str)) (p : Str) (keep : Bool)
    (hm : (mapKeys m).Nodup) (hperm : es.Perm m) :
    (∀ name val, mapGet (classify p keep es).secrets name = some val ↔
      ∃ rest, (p ++ rest, val) ∈ m ∧ name = (if keep then p ++ rest else rest)) ∧
    (∀ name val, mapGet (classify p keep es).vars name = some val ↔
      (name, val) ∈ m ∧ ¬ p <+: name) := by
  have hes : (mapKeys es).Nodup := (hperm.map Prod.fst).nodup_iff.mpr hm
  rw [classify_of_nodup p keep es hes]
  refine ⟨?_, ?_⟩
  · intro name val
    simp only
    rw [mapGet_eq_some_iff _ (secretPart_keys_nodup p keep es hes), mem_secretPart]
    constructor
    · rintro ⟨rest, h1, h2⟩
      exact ⟨rest, hperm.subset h1, h2⟩
    · rintro ⟨rest, h1, h2⟩
      exact ⟨rest, hperm.symm.subset h1, h2⟩
  · intro name val
    simp only
    rw [mapGet_eq_some_iff _ (varPart_keys_nodup p keep es hes), mem_varPart]
    constructor
    · rintro ⟨h1, h2⟩
      exact ⟨hperm.subset h1, h2⟩
    · rintro ⟨h1, h2⟩
      exact ⟨hperm.symm.subset h1, h2⟩

/-- C3: for a parsed mapping `m` (pairwise distinct keys), visited in any order `es`,
every secret prefix `p` and either keep-prefix setting: the secrets mapping holds `val`
under `name` exactly when `m` has an entry `(p ++ rest, val)` and `name` is `rest` (the
key with `p` removed from the front), or the key itself when the prefix is kept; the
variables mapping holds `val` under `name` exactly when `(name, val)` is an entry of `m`
whose key does not start with `p`.  With the prefix `SECURED_`, `SECURED_DB_PASS=x` gives
the secret `DB_PASS` (`SECURED_DB_PASS` when kept) and `DB_HOST=y` the variable
`DB_HOST`. -/
theorem classify_spec (m es : List (Str × Str)) (p : Str) (keep : Bool)
    (hm : (mapKeys m).Nodup) (hperm : es.Perm m) :
    (∀ name val, mapGet (classify p keep es).secrets name = some val ↔
      ∃ rest, (p ++ rest, val) ∈ m ∧ name = (if keep then p ++ rest else rest)) ∧
    (∀ name val, mapGet (classify p keep es).vars name = some val ↔
      (name, val) ∈ m ∧ ¬ p <+: name) ∧
    classify "SECURED_".toList false
        [("SECURED_DB_PASS".toList, "x".toList), ("DB_HOST".toList, "y".toList)]
      = ⟨[("DB_PASS".toList, "x".toList)], [("DB_HOST".toList, "y".toList)]⟩ ∧
    classify "SECURED_".toList true
        [("SECURED_DB_PASS".toList, "x".toList), ("DB_HOST".toList, "y".toList)]
      = ⟨[("SECURED_DB_PASS".toList, "x".toList)], [("DB_HOST".toList, "y".toList)]⟩ := by
  exact ⟨(classify_get m es p keep hm hperm).1, (classify_get m es p keep hm hperm).2,
    by decide, by decide⟩

theorem classify_spec_witness :
    mapGet (classify "S_".toList false
      [("A".toList, "1".toList), ("S_B".toList, "2".toList)]).secrets "B".toList
      = some "2".toList :=
  ((classify_spec [("S_B".toList, "2".toList), ("A".toList, "1".toList)]
    [("A".toList, "1".toList), ("S_B".toList, "2".toList)] "S_".toList false
    (by decide) (by decide)).1 "B".toList "2".toList).mpr
    ⟨"B".toList, by decide, by decide⟩

/-- C10: classification loses no entry.  Two distinct keys routed to the same mapping get
distinct remote names; hence, for a parsed mapping `m` visited in any order `es`, every
entry is found with its own value under its remote name in the mapping it is routed to,
the two mappings are the same maps as for the order of `m`, and the number of secrets
plus the number of variables is the number of parsed entries. -/
theorem classify_loses_no_entry (p : Str) (keep : Bool) :
    (∀ k1 k2 : Str, k1 ≠ k2 → HasPrefix k1 p = HasPrefix k2 p →
      remoteName p keep k1 ≠ remoteName p keep k2) ∧
    (∀ m es : List (Str × Str), (mapKeys m).Nodup → es.Perm m →
      (∀ k v, (k, v) ∈ m →
        mapGet (if HasPrefix k p then (classify p keep es).secrets
          else (classify p keep es).vars) (remoteName p keep k) = some v) ∧
      MapEq (classify p keep es).secrets (classify p keep m).secrets ∧
      MapEq (classify p keep es).vars (classify p keep m).vars ∧
      (classify p keep es).secrets.length + (classify p keep es).vars.length = m.length) := by
  refine ⟨fun k1 k2 hne hr hn => hne (remoteName_inj p keep k1 k2 hr hn), ?_⟩
  intro m es hm hperm
  have hes : (mapKeys es).Nodup := (hperm.map Prod.fst).nodup_iff.mpr hm
  have hspec := classify_get m es p keep hm hperm
  have hspec2 := classify_get m m p keep hm (List.Perm.refl m)
  refine ⟨?_, ?_, ?_, ?_⟩
  · intro k v hkv
    rw [classify_of_nodup p keep es hes]
    have hkv2 : (k, v) ∈ es := hperm.symm.subset hkv
    by_cases hp : HasPrefix k p = true
    · rw [if_pos hp]
      simp only
      rw [mapGet_eq_some_iff _ (secretPart_keys_nodup p keep es hes)]
      unfold secretPart
      exact List.mem_map.mpr ⟨(k, v), List.mem_filter.mpr ⟨hkv2, hp⟩, rfl⟩
    · rw [if_neg hp]
      simp only
      rw [mapGet_eq_some_iff _ (varPart_keys_nodup p keep es hes)]
      unfold varPart
      exact List.mem_map.mpr ⟨(k, v), List.mem_filter.mpr ⟨hkv2, by simpa using hp⟩, rfl⟩
  · intro name
    apply Option.ext
    intro val
    rw [Option.mem_def, Option.mem_def, hspec.1 name val, hspec2.1 name val]
  · intro name
    apply Option.ext
    intro val
    rw [Option.mem_def, Option.mem_def, hspec.2 name val, hspec2.2 name val]
  · rw [classify_of_nodup p keep es hes]
    simp only [secretPart, varPart, List.length_map]
    rw [← hperm.length_eq]
    exact (List.length_eq_length_filter_add (fun kv : Str × Str => HasPrefix kv.1 p)).symm

theorem classify_loses_no_entry_witness :
    remoteName "S_".toList false "S_A".toList ≠ remoteName "S_".toList false "S_B".toList ∧
    (classify "S_".toList false
        [("A".toList, "1".toList), ("S_A".toList, "2".toList)]).secrets.length +
      (classify "S_".toList false
        [("A".toList, "1".toList), ("S_A".toList, "2".toList)]).vars.length = 2 :=
  ⟨(classify_loses_no_entry "S_".toList false).1 "S_A".toList "S_B".toList (by decide)
      (by decide),
    ((classify_loses_no_entry "S_".toList false).2
      [("S_A".toList, "2".toList), ("A".toList, "1".toList)]
      [("A".toList, "1".toList), ("S_A".toList, "2".toList)] (by decide) (by decide)).2.2.2⟩

/-! ### Dry run -/

theorem Grows.refl (P : Event → Bool) (w : World) : Grows P w w :=
  ⟨rfl, [], by simp, by simp⟩

theorem Grows.trans {P : Event → Bool} {w1 w2 w3 : World} (h1 : Grows P w1 w2)
    (h2 : Grows P w2 w3) : Grows P w1 w3 := by
  obtain ⟨r1, n1, t1, p1⟩ := h1
  obtain ⟨r2, n2, t2, p2⟩ := h2
  refine ⟨r2.trans r1, n1 ++ n2, by rw [t2, t1, List.append_assoc], ?_⟩
  intro e he
  rcases List.mem_append.mp he with h | h
  · exact p1 e h
  · exact p2 e h

theorem Grows.emit (P : Event → Bool) (w : World) (e : Event) (h : P e = true) :
    Grows P w (w.emit e) :=
  ⟨rfl, [e], rfl, by simpa using h⟩

theorem Grows.mono {P Q : Event → Bool} {w w2 : World} (h : Grows P w w2)
    (hpq : ∀ e, P e = true → Q e = true) : Grows Q w w2 := by
  obtain ⟨r, n, t, p⟩ := h
  exact ⟨r, n, t, fun e he => hpq e (p e he)⟩

theorem runPrint_dry (ag : Agent) (c : Call) (verbose : Bool) (w : World) :
    Grows Event.dryAllowed w (runPrint ag c true verbose w).2 := by
  unfold runPrint
  exact Grows.emit _ _ _ rfl

theorem listNames_grows (ag : Agent) (kind : Kind) (repo env : Str) (w : World) :
    Grows Event.dryAllowed w (listNames ag kind repo env w).2 := by
  unfold listNames run agentRun
  simp only [Bool.false_eq_true, if_false]
  split
  · exact ⟨rfl, [.exec (.list kind repo env)], rfl, by simp [Event.dryAllowed]⟩
  · rename_i r heq
    have hr : r = w.remote := by
      split at heq
      · simp at heq
      · simpa [Call.effect] using heq.symm
    exact ⟨hr, [.exec (.list kind repo env)], rfl, by simp [Event.dryAllowed]⟩

theorem writeEnvTempFile_grows (host : Host) (pre : Str) (kv : GoMap) (w : World) :
    Grows Event.dryAllowed w (writeEnvTempFile host pre kv w).2 := by
  unfold writeEnvTempFile
  simp only
  split
  · exact Grows.refl _ _
  · exact Grows.emit _ _ _ rfl

theorem setFromMap_dry (host : Host) (ag : Agent) (kind : Kind) (pre repo env : Str)
    (kv : GoMap) (verbose : Bool) (w : World) :
    Grows Event.dryAllowed w (setFromMap host ag kind pre repo env kv true verbose w).2 := by
  unfold setFromMap
  have h1 := writeEnvTempFile_grows host pre kv w
  cases hw : writeEnvTempFile host pre kv w with
  | mk r w1 =>
    rw [hw] at h1
    cases r with
    | error e => exact h1
    | ok tmp =>
      simp only
      exact h1.trans ((runPrint_dry ag _ verbose w1).trans (Grows.emit _ _ _ rfl))

theorem deleteLoop_dry (ag : Agent) (kind : Kind) (repo env : Str) (desired : GoMap)
    (verbose : Bool) (names : List Str) (w : World) :
    Grows Event.dryAllowed w
      (deleteLoop ag kind repo env desired true verbose names w).2 := by
  induction names generalizing w with
  | nil => exact Grows.refl _ _
  | cons a t ih =>
    unfold deleteLoop
    split
    · exact ih w
    · have h1 := runPrint_dry ag (.delete kind a repo env) verbose w
      cases hr : runPrint ag (.delete kind a repo env) true verbose w with
      | mk r w1 =>
        rw [hr] at h1
        cases r with
        | error e => exact h1
        | ok u => exact h1.trans (ih w1)

theorem DeleteMissing_dry (ag : Agent) (repo env : Str) (ds dv : GoMap) (verbose : Bool)
    (w : World) : Grows Event.dryAllowed w (DeleteMissing ag repo env ds dv true verbose w).2 := by
  unfold DeleteMissing
  have h1 := listNames_grows ag .secret repo env w
  cases hl1 : listNames ag .secret repo env w with
  | mk r1 w1 =>
    rw [hl1] at h1
    cases r1 with
    | error e => exact h1
    | ok names1 =>
      simp only
      have h2 := listNames_grows ag .variable repo env w1
      cases hl2 : listNames ag .variable repo env w1 with
      | mk r2 w2 =>
        rw [hl2] at h2
        cases r2 with
        | error e => exact h1.trans h2
        | ok names2 =>
          simp only
          have h3 := deleteLoop_dry ag .secret repo env ds verbose names1 w2
          cases hd : deleteLoop ag .secret repo env ds true verbose names1 w2 with
          | mk r3 w3 =>
            rw [hd] at h3
            cases r3 with
            | error e => exact h1.trans (h2.trans h3)
            | ok u =>
              exact h1.trans (h2.trans (h3.trans
                (deleteLoop_dry ag .variable repo env dv verbose names2 w3)))

theorem confirmDelete_grows (host : Host) (opts : Options) (w : World) :
    Grows Event.dryAllowed w (confirmDelete host opts w).2 := by
  unfold confirmDelete
  split
  · simp only
    have h4 : Grows Event.dryAllowed w
        ((((w.emit (.print
          "⚠️  -d enabled: this will delete secrets/variables not present in the file.\n".toList)).emit
          (.print "Use --yes to skip confirmation.\n".toList)).emit
          (.print "Continue? [y/N] ".toList)).emit .readAnswer) :=
      (((Grows.emit _ _ _ rfl).trans (Grows.emit _ _ _ rfl)).trans
        (Grows.emit _ _ _ rfl)).trans (Grows.emit _ _ _ rfl)
    split
    · exact h4.trans (Grows.emit _ _ _ rfl)
    · exact h4
  · exact Grows.refl _ _

theorem syncEntries_dry (host : Host) (ag : Agent) (opts : Options) (repo : Str)
    (entries : GoMap) (w : World) (hdry : opts.DryRun = true) :
    Grows Event.dryAllowed w (syncEntries host ag opts repo entries w).2 := by
  unfold syncEntries
  simp only [hdry, if_true]
  have h1 : Grows Event.dryAllowed w
      (if opts.Env ≠ [] then
        ((.ok () : Except RunError Unit), w.emit (.print
          ("[dry-run] would ensure environment exists: ".toList ++ opts.Env ++
            " (repo ".toList ++ repo ++ ")\n".toList)))
      else (.ok (), w)).2 := by
    split
    · exact Grows.emit _ _ _ rfl
    · exact Grows.refl _ _
  have h1ok : (if opts.Env ≠ [] then
        ((.ok () : Except RunError Unit), w.emit (.print
          ("[dry-run] would ensure environment exists: ".toList ++ opts.Env ++
            " (repo ".toList ++ repo ++ ")\n".toList)))
      else (.ok (), w)).1 = .ok () := by
    split <;> rfl
  generalize (if opts.Env ≠ [] then
        ((.ok () : Except RunError Unit), w.emit (.print
          ("[dry-run] would ensure environment exists: ".toList ++ opts.Env ++
            " (repo ".toList ++ repo ++ ")\n".toList)))
      else (.ok (), w)) = s1 at h1 h1ok
  obtain ⟨r1, w1⟩ := s1
  simp only at h1 h1ok
  subst h1ok
  simp only
  have h2 : Grows Event.dryAllowed w1
      (if 0 < (classify opts.SecretPrefix opts.KeepPrefix entries).secrets.length then
        SetSecretsFromMap host ag repo opts.Env
          (classify opts.SecretPrefix opts.KeepPrefix entries).secrets true opts.Verbose w1
      else (.ok (), w1)).2 := by
    split
    · exact setFromMap_dry _ _ _ _ _ _ _ _ _
    · exact Grows.refl _ _
  generalize (if 0 < (classify opts.SecretPrefix opts.KeepPrefix entries).secrets.length then
        SetSecretsFromMap host ag repo opts.Env
          (classify opts.SecretPrefix opts.KeepPrefix entries).secrets true opts.Verbose w1
      else (.ok (), w1)) = s2 at h2
  obtain ⟨r2, w2⟩ := s2
  simp only at h2
  cases r2 with
  | error e => exact h1.trans h2
  | ok u2 =>
    simp only
    have h3 : Grows Event.dryAllowed w2
        (if 0 < (classify opts.SecretPrefix opts.KeepPrefix entries).vars.length then
          SetVariablesFromMap host ag repo opts.Env
            (classify opts.SecretPrefix opts.KeepPrefix entries).vars true opts.Verbose w2
        else (.ok (), w2)).2 := by
      split
      · exact setFromMap_dry _ _ _ _ _ _ _ _ _
      · exact Grows.refl _ _
    generalize (if 0 < (classify opts.SecretPrefix opts.KeepPrefix entries).vars.length then
          SetVariablesFromMap host ag repo opts.Env
            (classify opts.SecretPrefix opts.KeepPrefix entries).vars true opts.Verbose w2
        else (.ok (), w2)) = s3 at h3
    obtain ⟨r3, w3⟩ := s3
    simp only at h3
    have h123 := h1.trans (h2.trans h3)
    cases r3 with
    | error e => exact h123
    | ok u3 =>
      simp only
      split
      · have h4 := confirmDelete_grows host opts w3
        cases hc : confirmDelete host opts w3 with
        | mk b w4 =>
          rw [hc] at h4
          cases b with
          | false => exact h123.trans h4
          | true =>
            simp only
            have h5 := DeleteMissing_dry ag repo opts.Env
              (classify opts.SecretPrefix opts.KeepPrefix entries).secrets
              (classify opts.SecretPrefix opts.KeepPrefix entries).vars opts.Verbose w4
            cases hd : DeleteMissing ag repo opts.Env
              (classify opts.SecretPrefix opts.KeepPrefix entries).secrets
              (classify opts.SecretPrefix opts.KeepPrefix entries).vars true opts.Verbose w4 with
            | mk r5 w5 =>
              rw [hd] at h5
              cases r5 with
              | error e => exact h123.trans (h4.trans h5)
              | ok u5 => exact h123.trans (h4.trans (h5.trans (Grows.emit _ _ _ rfl)))
      · exact h123.trans (Grows.emit _ _ _ rfl)

theorem dryAllowed_harmless (e : Event) (h : e.dryAllowed = true) : e.harmless = true := by
  cases e with
  | exec c => cases c <;> simp_all [Event.dryAllowed, Event.harmless, Call.mutating]
  | _ => rfl

theorem agentRun_readonly (ag : Agent) (c : Call) (w : World) (hc : c.mutating = false)
    (he : c.effect (stagedFile w.trace) w.remote = some w.remote) :
    Grows Event.harmless w (agentRun ag c w).2 := by
  unfold agentRun
  simp only [hc, Bool.false_eq_true, if_false]
  split
  · exact ⟨rfl, [.exec c], rfl, by simp [Event.harmless, hc]⟩
  · rename_i r heq
    have hr : r = w.remote := by
      split at heq
      · simp at heq
      · rw [he] at heq
        simpa using heq.symm
    exact ⟨hr, [.exec c], rfl, by simp [Event.harmless, hc]⟩

theorem RequireAuth_grows (ag : Agent) (w : World) :
    Grows Event.harmless w (RequireAuth ag w).2 := by
  unfold RequireAuth
  have h := agentRun_readonly ag .authStatus w rfl rfl
  cases hr : agentRun ag .authStatus w with
  | mk r w1 =>
    rw [hr] at h
    cases r with
    | error e => exact h
    | ok u => exact h

theorem resolveRepo_grows (host : Host) (opts : Options) (w : World) :
    Grows Event.harmless w (resolveRepo host opts w).2 := by
  unfold resolveRepo
  split
  · split
    · exact Grows.emit _ _ _ rfl
    · exact Grows.emit _ _ _ rfl
  · exact Grows.refl _ _

theorem applyDefaults_DryRun (opts : Options) : (applyDefaults opts).DryRun = opts.DryRun := by
  unfold applyDefaults
  simp only
  split <;> split <;> rfl

theorem RunE_dry (host : Host) (ag : Agent) (opts : Options) (w : World)
    (hdry : opts.DryRun = true) : Grows Event.harmless w (RunE host ag opts w).2 := by
  unfold RunE
  simp only
  split
  · exact Grows.refl _ _
  · have h1 := RequireAuth_grows ag w
    cases ha : RequireAuth ag w with
    | mk r1 w1 =>
      rw [ha] at h1
      cases r1 with
      | error e => exact h1
      | ok u =>
        simp only
        have h2 := resolveRepo_grows host (applyDefaults opts) w1
        cases hr : resolveRepo host (applyDefaults opts) w1 with
        | mk r2 w2 =>
          rw [hr] at h2
          cases r2 with
          | error e => exact h1.trans h2
          | ok repo =>
            simp only
            split
            · exact h1.trans h2
            · exact h1.trans (h2.trans ((syncEntries_dry host ag _ repo _ w2
                (by rw [applyDefaults_DryRun]; exact hdry)).mono dryAllowed_harmless))

/-- C2 fails as stated in its last clause: in a dry run with `--delete-missing --yes` the
run writes and removes the staging file and executes the two list invocations of the
external agent, so not everything that occurs is a print statement. -/
theorem dry_run_not_only_prints :
    demoDryOptions.DryRun = true ∧
    (syncEntries demoHost reliableAgent demoDryOptions "acme/widgets".toList
        [("SECURED_A".toList, "1".toList)] ⟨demoRemote, []⟩).2.trace =
      [.writeFile "/tmp/gh-manage-env_secrets_linux.env".toList "A=1\n".toList,
        .print "[dry-run] gh secret set -f /tmp/gh-manage-env_secrets_linux.env -R acme/widgets\n".toList,
        .removeFile "/tmp/gh-manage-env_secrets_linux.env".toList,
        .exec (.list .secret "acme/widgets".toList []),
        .exec (.list .variable "acme/widgets".toList []),
        .print "[dry-run] gh secret delete OLD -R acme/widgets\n".toList,
        .print "✅ Done.\n".toList] ∧
    ¬ ∀ e ∈ (syncEntries demoHost reliableAgent demoDryOptions "acme/widgets".toList
        [("SECURED_A".toList, "1".toList)] ⟨demoRemote, []⟩).2.trace, e.isPrint = true := by
  decide

/-- C2, amended: with dry-run enabled, for every parsed mapping, remote store, agent and
option setting, the run executes no mutating invocation of the external agent and the
remote store after the run is the store before it; what occurs besides the print
statements of the intended invocations is: the read-only list invocations of
`DeleteMissing`, the writing and removal of the staging files, and the reading of the
answer at the prompt.  The same frame holds for the whole of `RunE`, which also runs
`gh auth status` and `git`. -/
theorem dry_run_frame (host : Host) (ag : Agent) (opts : Options) (hdry : opts.DryRun = true) :
    (∀ (repo : Str) (entries : GoMap) (w : World),
      (syncEntries host ag opts repo entries w).2.remote = w.remote ∧
      ∃ new, (syncEntries host ag opts repo entries w).2.trace = w.trace ++ new ∧
        (∀ e ∈ new, e.dryAllowed = true) ∧
        (∀ c, Event.exec c ∈ new → c.mutating = false)) ∧
    (∀ w : World, (RunE host ag opts w).2.remote = w.remote ∧
      ∃ new, (RunE host ag opts w).2.trace = w.trace ++ new ∧
        (∀ c, Event.exec c ∈ new → c.mutating = false)) := by
  constructor
  · intro repo entries w
    obtain ⟨h1, new, h2, h3⟩ := syncEntries_dry host ag opts repo entries w hdry
    refine ⟨h1, new, h2, h3, ?_⟩
    intro c hc
    have := dryAllowed_harmless _ (h3 _ hc)
    simpa [Event.harmless] using this
  · intro w
    obtain ⟨h1, new, h2, h3⟩ := RunE_dry host ag opts w hdry
    refine ⟨h1, new, h2, ?_⟩
    intro c hc
    have := h3 _ hc
    simpa [Event.harmless] using this

theorem dry_run_frame_witness :
    demoDryOptions.DryRun = true ∧
    (syncEntries demoHost reliableAgent demoDryOptions "acme/widgets".toList
        [("SECURED_A".toList, "1".toList)] ⟨demoRemote, []⟩).2.remote = demoRemote :=
  ⟨by decide,
    ((dry_run_frame demoHost reliableAgent demoDryOptions (by decide)).1 "acme/widgets".toList
      [("SECURED_A".toList, "1".toList)] ⟨demoRemote, []⟩).1⟩

/-! ### The remote store -/

theorem mem_storeNames (es : List Entry) (repo env n : Str) :
    n ∈ storeNames es repo env ↔ ∃ e ∈ es, e.repo = repo ∧ e.env = env ∧ e.name = n := by
  unfold storeNames
  simp only [List.mem_map, List.mem_filter, Bool.and_eq_true, beq_iff_eq]
  constructor
  · rintro ⟨e, ⟨he, h1, h2⟩, h3⟩
    exact ⟨e, he, h1, h2, h3⟩
  · rintro ⟨e, he, h1, h2, h3⟩
    exact ⟨e, ⟨he, h1, h2⟩, h3⟩

theorem mem_storeNames_delete (es : List Entry) (repo env k n : Str) :
    n ∈ storeNames (storeDelete es repo env k) repo env ↔
      n ≠ k ∧ n ∈ storeNames es repo env := by
  rw [mem_storeNames, mem_storeNames]
  unfold storeDelete Entry.isAt
  simp only [List.mem_filter, Bool.not_eq_true', Bool.and_eq_false_iff, beq_eq_false_iff_ne]
  constructor
  · rintro ⟨e, ⟨he, hne⟩, h1, h2, h3⟩
    refine ⟨?_, e, he, h1, h2, h3⟩
    intro hk
    subst hk
    rcases hne with (h | h) | h
    · exact h h1
    · exact h h2
    · exact h h3
  · rintro ⟨hne, e, he, h1, h2, h3⟩
    refine ⟨e, ⟨he, Or.inr ?_⟩, h1, h2, h3⟩
    rw [h3]
    exact hne

theorem mem_storeNames_upsert (es : List Entry) (repo env k v n : Str) :
    n ∈ storeNames (storeUpsert es repo env k v) repo env ↔
      n = k ∨ n ∈ storeNames es repo env := by
  unfold storeUpsert
  have h1 : storeNames (storeDelete es repo env k ++ [⟨repo, env, k, v⟩]) repo env
      = storeNames (storeDelete es repo env k) repo env ++ [k] := by
    simp [storeNames, List.filter_append]
  rw [h1, List.mem_append, mem_storeNames_delete]
  simp only [List.mem_singleton]
  constructor
  · rintro (⟨_, h⟩ | h)
    · exact Or.inr h
    · exact Or.inl h
  · rintro (h | h)
    · exact Or.inr h
    · by_cases hk : n = k
      · exact Or.inr hk
      · exact Or.inl ⟨hk, h⟩

theorem mem_storeNames_upsertAll (es : List Entry) (repo env : Str) (kv : GoMap) (n : Str) :
    n ∈ storeNames (storeUpsertAll es repo env kv) repo env ↔
      n ∈ mapKeys kv ∨ n ∈ storeNames es repo env := by
  induction kv generalizing es with
  | nil => simp [storeUpsertAll, mapKeys]
  | cons a t ih =>
    obtain ⟨k, v⟩ := a
    simp only [storeUpsertAll, mapKeys, List.map_cons, List.mem_cons]
    rw [ih, mem_storeNames_upsert]
    unfold mapKeys
    tauto

theorem values_setValues (r : Remote) (kind kind2 : Kind) (es : List Entry) :
    (r.setValues kind es).values kind2 = if kind2 = kind then es else r.values kind2 := by
  cases kind <;> cases kind2 <;> rfl

/-! ### A run that executes -/

theorem stagedFile_emit (w : World) (e : Event) (path : Str) :
    stagedFile (w.emit e).trace path =
      match e with
      | .writeFile p c => if p = path then some c else stagedFile w.trace path
      | .removeFile p => if p = path then none else stagedFile w.trace path
      | _ => stagedFile w.trace path := by
  unfold stagedFile World.emit
  cases e <;> simp [List.foldl_append]

theorem stagedFile_emit_print (w : World) (t : Str) :
    stagedFile (w.emit (.print t)).trace = stagedFile w.trace := by
  funext path
  rw [stagedFile_emit]

theorem agentRun_ok (ag : Agent) (c : Call) (w w2 : World) (out : List Str)
    (h : agentRun ag c w = (.ok out, w2)) :
    c.effect (stagedFile w.trace) w.remote = some w2.remote ∧ out = c.output w.remote := by
  unfold agentRun at h
  split at h
  · simp at h
  · rename_i r heq
    simp only [Prod.mk.injEq, Except.ok.injEq] at h
    rw [← h.2, ← h.1]
    split at heq
    · simp at heq
    · exact ⟨heq, rfl⟩

theorem emit_remote (w : World) (e : Event) : (w.emit e).remote = w.remote := rfl

theorem run_ok (ag : Agent) (c : Call) (verbose : Bool) (w w2 : World) (out : List Str)
    (h : run ag c verbose w = (.ok out, w2)) :
    c.effect (stagedFile w.trace) w.remote = some w2.remote ∧ out = c.output w.remote := by
  unfold run at h
  have := agentRun_ok ag c _ w2 out h
  cases verbose
  · simpa using this
  · simpa [emit_remote, stagedFile_emit_print] using this

theorem runPrint_ok (ag : Agent) (c : Call) (verbose : Bool) (w w2 : World) (u : Unit)
    (h : runPrint ag c false verbose w = (.ok u, w2)) :
    c.effect (stagedFile w.trace) w.remote = some w2.remote := by
  unfold runPrint at h
  simp only [Bool.false_eq_true, if_false] at h
  split at h
  · simp at h
  · rename_i out w3 heq
    simp only [Prod.mk.injEq, Except.ok.injEq, true_and] at h
    subst h
    have := (agentRun_ok ag c _ w3 out heq).1
    cases verbose
    · simpa using this
    · simpa [emit_remote, stagedFile_emit_print] using this

theorem EnsureEnvironment_ok (ag : Agent) (repo env : Str) (w w2 : World) (u : Unit)
    (h : EnsureEnvironment ag repo env w = (.ok u, w2)) (kind : Kind) :
    w2.remote.values kind = w.remote.values kind := by
  unfold EnsureEnvironment at h
  split at h
  · simp at h
  · rename_i out w3 heq
    simp only [Prod.mk.injEq, Except.ok.injEq, true_and] at h
    subst h
    have he := (run_ok ag _ false w w3 out heq).1
    unfold Call.effect at he
    simp only [Option.some.injEq] at he
    rw [← he]
    split <;> cases kind <;> rfl

/-- A bulk set that succeeds has read the staging file as a definition file and upserted
the entries it holds. -/
theorem setFromMap_ok (host : Host) (ag : Agent) (kind : Kind) (pre repo env : Str)
    (kv : GoMap) (verbose : Bool) (w w2 : World) (u : Unit)
    (h : setFromMap host ag kind pre repo env kv false verbose w = (.ok u, w2)) :
    ∃ staged, ParseFile (some (envFileContent kv)) = .ok staged ∧
      ∀ kind2, w2.remote.values kind2 =
        if kind2 = kind then storeUpsertAll (w.remote.values kind) repo env staged
        else w.remote.values kind2 := by
  unfold setFromMap at h
  split at h
  · simp at h
  · rename_i tmp w3 heq
    have hw3 : w3.remote = w.remote ∧
        stagedFile w3.trace tmp = some (envFileContent kv) := by
      unfold writeEnvTempFile at heq
      simp only at heq
      split at heq
      · simp at heq
      · simp only [Prod.mk.injEq, Except.ok.injEq] at heq
        rw [← heq.2, ← heq.1, stagedFile_emit]
        simp [emit_remote]
    cases hr : runPrint ag (.bulkSet kind tmp repo env) false verbose w3 with
    | mk r w4 =>
      rw [hr] at h
      simp only [Prod.mk.injEq] at h
      obtain ⟨h1, h2⟩ := h
      subst h1 h2
      have he := runPrint_ok ag _ verbose w3 w4 u hr
      unfold Call.effect at he
      simp only [hw3.2, hw3.1] at he
      cases hp : ParseFile (some (envFileContent kv)) with
      | error e => rw [hp] at he; simp at he
      | ok staged =>
        rw [hp] at he
        simp only [Option.some.injEq] at he
        refine ⟨staged, rfl, fun kind2 => ?_⟩
        rw [emit_remote, ← he, values_setValues]

theorem listNames_ok (ag : Agent) (kind : Kind) (repo env : Str) (w w2 : World)
    (names : List Str) (h : listNames ag kind repo env w = (.ok names, w2)) :
    w2.remote = w.remote ∧ names = storeNames (w.remote.values kind) repo env := by
  unfold listNames at h
  obtain ⟨h1, h2⟩ := run_ok ag _ false w w2 names h
  unfold Call.effect at h1
  simp only [Option.some.injEq] at h1
  exact ⟨h1.symm, h2⟩

theorem deleteLoop_ok (ag : Agent) (kind : Kind) (repo env : Str) (desired : GoMap)
    (verbose : Bool) (names : List Str) (w w2 : World) (u : Unit)
    (h : deleteLoop ag kind repo env desired false verbose names w = (.ok u, w2)) :
    (∀ n, n ∈ storeNames (w2.remote.values kind) repo env ↔
      n ∈ storeNames (w.remote.values kind) repo env ∧ (n ∈ names → n ∈ mapKeys desired)) ∧
    (∀ kind2, kind2 ≠ kind → w2.remote.values kind2 = w.remote.values kind2) := by
  induction names generalizing w with
  | nil =>
    unfold deleteLoop at h
    simp only [Prod.mk.injEq] at h
    rw [← h.2]
    simp
  | cons a t ih =>
    unfold deleteLoop at h
    split at h
    · rename_i hsome
      obtain ⟨h1, h2⟩ := ih w h
      refine ⟨fun n => ?_, h2⟩
      rw [h1 n]
      rw [mapGet_isSome_iff] at hsome
      constructor
      · rintro ⟨h3, h4⟩
        refine ⟨h3, fun hm => ?_⟩
        rcases List.mem_cons.mp hm with e | e
        · rw [e]; exact hsome
        · exact h4 e
      · rintro ⟨h3, h4⟩
        exact ⟨h3, fun hm => h4 (List.mem_cons_of_mem _ hm)⟩
    · rename_i hnone
      rw [mapGet_isSome_iff] at hnone
      split at h
      · simp at h
      · rename_i u2 w3 heq
        have hw3 := runPrint_ok ag _ verbose w w3 u2 heq
        unfold Call.effect at hw3
        simp only [Option.some.injEq] at hw3
        obtain ⟨h1, h2⟩ := ih w3 h
        have hv : ∀ kind2, w3.remote.values kind2 =
            if kind2 = kind then storeDelete (w.remote.values kind) repo env a
            else w.remote.values kind2 := by
          intro kind2
          rw [← hw3, values_setValues]
        constructor
        · intro n
          rw [h1 n, hv kind, if_pos rfl, mem_storeNames_delete]
          constructor
          · rintro ⟨⟨h3, h4⟩, h5⟩
            refine ⟨h4, fun hm => ?_⟩
            rcases List.mem_cons.mp hm with e | e
            · exact absurd e h3
            · exact h5 e
          · rintro ⟨h3, h4⟩
            refine ⟨⟨?_, h3⟩, fun hm => h4 (List.mem_cons_of_mem _ hm)⟩
            intro e
            apply hnone
            rw [← e]
            exact h4 (by rw [e]; exact List.mem_cons_self _ _)
        · intro kind2 hk
          rw [h2 kind2 hk, hv kind2, if_neg hk]

theorem DeleteMissing_ok (ag : Agent) (repo env : Str) (ds dv : GoMap) (verbose : Bool)
    (w w2 : World) (u : Unit)
    (h : DeleteMissing ag repo env ds dv false verbose w = (.ok u, w2)) :
    (∀ n, n ∈ storeNames w2.remote.secrets repo env ↔
      n ∈ storeNames w.remote.secrets repo env ∧ n ∈ mapKeys ds) ∧
    (∀ n, n ∈ storeNames w2.remote.vars repo env ↔
      n ∈ storeNames w.remote.vars repo env ∧ n ∈ mapKeys dv) := by
  unfold DeleteMissing at h
  split at h
  · simp at h
  · rename_i names1 w3 heq1
    obtain ⟨hr3, hn1⟩ := listNames_ok ag .secret repo env w w3 names1 heq1
    split at h
    · simp at h
    · rename_i names2 w4 heq2
      obtain ⟨hr4, hn2⟩ := listNames_ok ag .variable repo env w3 w4 names2 heq2
      split at h
      · simp at h
      · rename_i u3 w5 heq3
        obtain ⟨h5a, h5b⟩ := deleteLoop_ok ag .secret repo env ds verbose names1 w4 w5 u3 heq3
        obtain ⟨h6a, h6b⟩ := deleteLoop_ok ag .variable repo env dv verbose names2 w5 w2 u h
        have e1 : w4.remote = w.remote := hr4.trans hr3
        have hs5 : w5.remote.vars = w.remote.vars := by
          have := h5b .variable (by decide)
          rw [e1] at this
          exact this
        have hs6 : w2.remote.secrets = w5.remote.secrets := h6b .secret (by decide)
        constructor
        · intro n
          rw [hs6]
          have := h5a n
          simp only [Remote.values, e1] at this
          rw [this, hn1]
          simp only [Remote.values]
          tauto
        · intro n
          have := h6a n
          simp only [Remote.values, hs5] at this
          rw [this, hn2, hr3]
          simp only [Remote.values]
          tauto

/-! ### What `ParseFile` stores -/

theorem byteLen_part (a b : Str) (h : a <:+: b) : byteLen a ≤ byteLen b := by
  obtain ⟨x, y, e⟩ := h
  rw [← e, byteLen_append, byteLen_append]
  omega

theorem unquote_part (v : Str) : unquote v <:+: v := by
  unfold unquote
  split
  · split
    · exact (List.dropLast_prefix _).isInfix.trans (List.drop_suffix 1 v).isInfix
    · exact List.infix_refl v
  · exact List.infix_refl v

theorem stripComment_no_hash (x : Str) : ¬ " #".toList <:+: stripComment x := by
  unfold stripComment
  cases hi : Index x " #".toList with
  | none => exact (Index_eq_none_iff _ _).mp hi
  | some i =>
    intro h
    have h2 := (Index_some x " #".toList (by decide) i hi).2
    apply h2
    have e : i + " #".toList.length - 1 = i + 1 := rfl
    rw [e]
    have h3 : List.take i x <+: List.take (i + 1) x := by
      rw [List.take_succ]
      exact List.prefix_append _ _
    exact (h.trans (TrimSpace_part _)).trans h3.isInfix

theorem beforeEq_afterEq (l : Str) (h : '=' ∈ l) : l = beforeEq l ++ '=' :: afterEq l := by
  unfold beforeEq afterEq
  rcases takeWhile_dropWhile_eq l with ⟨h1, _⟩ | ⟨rest, h2⟩
  · exfalso
    rw [List.dropWhile_eq_nil_iff] at h1
    have := h1 '=' h
    simp at this
  · have h3 : l.dropWhile (· != '=') = '=' :: rest := by
      have h4 := List.takeWhile_append_dropWhile (· != '=') l
      have h5 : List.takeWhile (· != '=') l ++ List.dropWhile (· != '=') l
          = List.takeWhile (· != '=') l ++ '=' :: rest := by rw [h4]; exact h2
      exact List.append_cancel_left h5
    rw [h3]
    simpa using h2

theorem not_mem_beforeEq (l : Str) : '=' ∉ beforeEq l := by
  unfold beforeEq
  intro h
  have := List.mem_takeWhile_imp h
  simp at this

theorem parseLine_good (lineNo : Nat) (raw : Str) (kv : Str × Str)
    (h : parseLine lineNo (dropCR raw) = .ok (some kv)) (hnl : '\n' ∉ raw)
    (hlen : byteLen raw < maxScanTokenSize) : GoodEntry kv := by
  have hns : isSkipped (TrimSpace (dropCR raw)) = false := by
    cases hs : isSkipped (TrimSpace (dropCR raw)) with
    | false => rfl
    | true => rw [parseLine_skipped lineNo _ hs] at h; simp at h
  rw [parseLine_eq lineNo _ hns] at h
  have hl := processed_part raw
  have hno := stripComment_no_hash (stripExport (TrimSpace (dropCR raw)))
  generalize stripComment (stripExport (TrimSpace (dropCR raw))) = l at h hl hno
  split_ifs at h with heq hk
  simp only [Except.ok.injEq, Option.some.injEq] at h
  subst h
  have hkp : TrimSpace (beforeEq l) <:+: l := by
    have : beforeEq l <:+: l :=
      ⟨[], '=' :: afterEq l, by simpa using (beforeEq_afterEq l heq).symm⟩
    exact (TrimSpace_part _).trans this
  have hvp : unquote (TrimSpace (afterEq l)) <:+: l := by
    have : afterEq l <:+: l :=
      ⟨beforeEq l ++ ['='], [], by simpa using (beforeEq_afterEq l heq).symm⟩
    exact (unquote_part _).trans ((TrimSpace_part _).trans this)
  refine ⟨hk, TrimSpace_idem _, ?_, ?_, ?_, ?_, ?_, ?_⟩
  · exact fun hm => not_mem_beforeEq l ((TrimSpace_part _).subset hm)
  · exact fun hm => hnl ((hkp.trans hl).subset hm)
  · exact fun hm => hnl ((hvp.trans hl).subset hm)
  · exact fun hm => hno (hm.trans hkp)
  · exact fun hm => hno (hm.trans hvp)
  · have h1 := byteLen_part _ _ (TrimSpace_part (beforeEq l))
    have h2 := byteLen_part _ _ ((unquote_part _).trans (TrimSpace_part (afterEq l)))
    have h3 : byteLen l = byteLen (beforeEq l) + 1 + byteLen (afterEq l) := by
      conv_lhs => rw [beforeEq_afterEq l heq]
      rw [byteLen_append, byteLen_cons]
      have : '='.utf8Size = 1 := by decide
      omega
    have h4 := byteLen_part _ _ hl
    simp only
    omega

theorem mem_mapSet (m : GoMap) (k v : Str) (e : Str × Str) (h : e ∈ mapSet m k v) :
    e ∈ m ∨ e = (k, v) := by
  induction m with
  | nil =>
    simp only [mapSet, List.mem_singleton] at h
    exact Or.inr h
  | cons a t ih =>
    obtain ⟨k2, v2⟩ := a
    unfold mapSet at h
    split at h
    · rcases List.mem_cons.mp h with h1 | h1
      · exact Or.inr h1
      · exact Or.inl (List.mem_cons_of_mem _ h1)
    · rcases List.mem_cons.mp h with h1 | h1
      · exact Or.inl (by rw [h1]; exact List.mem_cons_self _ _)
      · rcases ih h1 with h2 | h2
        · exact Or.inl (List.mem_cons_of_mem _ h2)
        · exact Or.inr h2

theorem mapKeys_mapSet (m : GoMap) (k v : Str) :
    mapKeys (mapSet m k v) = if k ∈ mapKeys m then mapKeys m else mapKeys m ++ [k] := by
  induction m with
  | nil => simp [mapSet, mapKeys]
  | cons a t ih =>
    obtain ⟨k2, v2⟩ := a
    by_cases hk : k2 = k
    · subst hk
      simp [mapSet, mapKeys]
    · have hk2 : ¬ k = k2 := fun e => hk e.symm
      unfold mapKeys at ih ⊢
      simp only [mapSet, hk, if_false, List.map_cons, List.mem_cons, hk2, false_or, ih]
      split <;> simp

theorem mapSet_nodup (m : GoMap) (k v : Str) (h : (mapKeys m).Nodup) :
    (mapKeys (mapSet m k v)).Nodup := by
  rw [mapKeys_mapSet]
  split
  · exact h
  · rename_i hk
    rw [List.nodup_append]
    refine ⟨h, List.nodup_singleton k, ?_⟩
    intro a ha hb
    rw [List.mem_singleton] at hb
    subst hb
    exact hk ha

theorem scanLoop_inv (lines : List Str) (n : Nat) (out m : GoMap)
    (h : scanLoop lines n out = .ok m) (hnl : ∀ raw ∈ lines, '\n' ∉ raw)
    (hout : (mapKeys out).Nodup ∧ ∀ kv ∈ out, GoodEntry kv) :
    (mapKeys m).Nodup ∧ ∀ kv ∈ m, GoodEntry kv := by
  induction lines generalizing n out with
  | nil =>
    unfold scanLoop at h
    simp only [Except.ok.injEq] at h
    rw [← h]
    exact hout
  | cons a t ih =>
    rw [scanLoop_cons] at h
    split_ifs at h with hlong
    have hnl2 : ∀ raw ∈ t, '\n' ∉ raw := fun raw hr => hnl raw (List.mem_cons_of_mem _ hr)
    cases hp : parseLine (n + 1) (dropCR a) with
    | error e => rw [hp] at h; simp at h
    | ok r =>
      rw [hp] at h
      cases r with
      | none => exact ih (n + 1) out h hnl2 hout
      | some kv =>
        obtain ⟨k, v⟩ := kv
        have hg := parseLine_good (n + 1) a (k, v) hp (hnl a (List.mem_cons_self _ _))
          (by omega)
        refine ih (n + 1) _ h hnl2 ⟨mapSet_nodup _ _ _ hout.1, ?_⟩
        intro e he
        rcases mem_mapSet _ _ _ _ he with h1 | h1
        · exact hout.2 e h1
        · rw [h1]; exact hg

theorem Split_no_sep (s : Str) (c : Char) (piece : Str) (h : piece ∈ Split s c) :
    c ∉ piece := by
  induction s generalizing piece with
  | nil =>
    simp only [Split, List.mem_singleton] at h
    rw [h]
    exact List.not_mem_nil c
  | cons a t ih =>
    unfold Split at h
    split at h
    · rcases List.mem_cons.mp h with h1 | h1
      · rw [h1]; exact List.not_mem_nil c
      · exact ih piece h1
    · rename_i hac
      split at h
      · simp only [List.mem_singleton] at h
        rw [h]
        simpa using fun e => hac e.symm
      · rename_i hd tl heq
        rcases List.mem_cons.mp h with h1 | h1
        · rw [h1]
          intro hm
          rcases List.mem_cons.mp hm with h2 | h2
          · exact hac h2.symm
          · exact ih hd (by rw [heq]; exact List.mem_cons_self _ _) h2
        · exact ih piece (by rw [heq]; exact List.mem_cons_of_mem _ h1)

theorem rawLines_no_newline (text raw : Str) (h : raw ∈ rawLines text) : '\n' ∉ raw := by
  unfold rawLines at h
  simp only at h
  split at h
  · exact Split_no_sep text '\n' raw (List.mem_of_mem_dropLast h)
  · exact Split_no_sep text '\n' raw h

/-- Every mapping `ParseFile` returns has pairwise distinct keys and good entries. -/
theorem ParseFile_good (text : Str) (m : GoMap) (h : ParseFile (some text) = .ok m) :
    (mapKeys m).Nodup ∧ ∀ kv ∈ m, GoodEntry kv := by
  unfold ParseFile at h
  exact scanLoop_inv (rawLines text) 0 [] m h (rawLines_no_newline text)
    ⟨by simp [mapKeys], by simp⟩

/-! ### Parsing the staging format -/

theorem pair_part_append (x y c : Char) (a b : Str) (hx : x ≠ c) (hy : y ≠ c)
    (h : [x, y] <:+: a ++ c :: b) : [x, y] <:+: a ∨ [x, y] <:+: b := by
  induction a with
  | nil =>
    simp only [List.nil_append] at h
    rw [List.infix_cons_iff] at h
    rcases h with h | h
    · have := h.subset (List.mem_cons_self _ _)
      obtain ⟨t, ht⟩ := h
      simp only [List.cons_append, List.cons.injEq] at ht
      exact absurd ht.1 hx
    · exact Or.inr h
  | cons d t ih =>
    simp only [List.cons_append] at h
    rw [List.infix_cons_iff] at h
    rcases h with h | h
    · left
      obtain ⟨r, hr⟩ := h
      simp only [List.cons_append, List.cons.injEq] at hr
      obtain ⟨hxd, hrest⟩ := hr
      cases t with
      | nil =>
        simp only [List.nil_append, List.cons.injEq] at hrest
        exact absurd hrest.1 hy
      | cons d2 t2 =>
        simp only [List.cons_append, List.cons.injEq] at hrest
        rw [← hxd, ← hrest.1]
        exact ⟨[], t2, by simp⟩
    · rcases ih h with h2 | h2
      · exact Or.inl (h2.trans (List.suffix_cons d t).isInfix)
      · exact Or.inr h2

theorem envLine_eq (kv : Str × Str) : envLine kv = kv.1 ++ '=' :: kv.2 := by
  simp [envLine]

theorem takeWhile_key (k v : Str) (hk : '=' ∉ k) :
    (k ++ '=' :: v).takeWhile (· != '=') = k ∧ (k ++ '=' :: v).dropWhile (· != '=') = '=' :: v := by
  induction k with
  | nil => simp [List.takeWhile_cons, List.dropWhile_cons]
  | cons a t ih =>
    have ha : ¬ a = '=' := fun e => hk (by simp [e])
    have ht : '=' ∉ t := fun e => hk (List.mem_cons_of_mem _ e)
    obtain ⟨h1, h2⟩ := ih ht
    simp [List.takeWhile_cons, List.dropWhile_cons, ha, h1, h2]

theorem envLine_last (k v : Str) (hv : TrimSpace v = v) (c : Char)
    (h : (k ++ '=' :: v).getLast? = some c) : isSpace c = false := by
  rcases List.eq_nil_or_concat v with hn | ⟨y, d, hn⟩
  · subst hn
    rw [List.getLast?_append] at h
    simp only [List.getLast?_singleton, Option.or_some, Option.some.injEq] at h
    rw [← h]; decide
  · rw [List.concat_eq_append] at hn
    subst hn
    have e : k ++ '=' :: (y ++ [d]) = (k ++ '=' :: y) ++ [d] := by simp
    rw [e, List.getLast?_append] at h
    simp only [List.getLast?_singleton, Option.or_some, Option.some.injEq] at h
    rw [← h]
    apply TrimSpace_last (y ++ [d])
    rw [hv]
    simp

theorem export_not_head (k v : Str) (hk : HasPrefix k "export ".toList = false) :
    HasPrefix (k ++ '=' :: v) "export ".toList = false := by
  rw [HasPrefix_false_iff] at hk ⊢
  intro h
  rcases List.prefix_or_prefix_of_prefix h (List.prefix_append k ('=' :: v)) with h1 | h1
  · exact hk h1
  · obtain ⟨r, hr⟩ := h1
    rw [← hr, List.prefix_append_right_inj] at h
    cases r with
    | nil =>
      apply hk
      rw [← hr]
      simp
    | cons a t =>
      obtain ⟨z, hz⟩ := h
      simp only [List.cons_append, List.cons.injEq] at hz
      have : '=' ∈ "export ".toList := by
        rw [← hr, hz.1]
        simp
      exact absurd this (by decide)

/-- A good entry that survives the staging format is read back from its line. -/
theorem parseLine_envLine (lineNo : Nat) (kv : Str × Str) (hg : GoodEntry kv)
    (hs : survivesStaging kv = true) :
    parseLine lineNo (dropCR (envLine kv)) = .ok (some kv) := by
  obtain ⟨k, v⟩ := kv
  obtain ⟨hne, htk, heq, _, _, hhk, hhv, _⟩ := hg
  simp only at hne htk heq hhk hhv
  unfold survivesStaging at hs
  simp only [Bool.and_eq_true, Bool.not_eq_true', beq_iff_eq] at hs
  obtain ⟨⟨⟨hs1, hs2⟩, hs3⟩, hs4⟩ := hs
  rw [envLine_eq]
  simp only
  have hlast := envLine_last k v hs3
  have hcr : dropCR (k ++ '=' :: v) = k ++ '=' :: v := by
    unfold dropCR
    rw [if_neg]
    intro h
    have := hlast _ h
    exact absurd this (by decide)
  obtain ⟨a, t, hk⟩ := List.exists_cons_of_ne_nil hne
  have ha : isSpace a = false := by
    apply TrimSpace_head k
    rw [htk, hk]
    rfl
  have hts : TrimSpace (k ++ '=' :: v) = k ++ '=' :: v := by
    apply TrimSpace_of_ends _ _ hlast
    intro c hc
    rw [hk] at hc
    simp only [List.cons_append, List.head?_cons, Option.some.injEq] at hc
    rw [← hc]; exact ha
  have hskip : isSkipped (k ++ '=' :: v) = false := by
    rw [hk] at hs1 ⊢
    unfold isSkipped HasPrefix at *
    simp only [List.cons_append]
    simpa [List.isPrefixOf] using hs1
  have hex : stripExport (k ++ '=' :: v) = k ++ '=' :: v := by
    unfold stripExport
    rw [export_not_head k v hs2]
    simp
  have hco : stripComment (k ++ '=' :: v) = k ++ '=' :: v := by
    unfold stripComment
    have : Index (k ++ '=' :: v) " #".toList = none := by
      rw [Index_eq_none_iff]
      intro h
      rcases pair_part_append ' ' '#' '=' k v (by decide) (by decide) h with h1 | h1
      · exact hhk h1
      · exact hhv h1
    rw [this]
  rw [hcr, parseLine_eq lineNo _ (by rw [hts]; exact hskip), hts, hex, hco]
  obtain ⟨hb, ha2⟩ := takeWhile_key k v heq
  unfold beforeEq afterEq
  rw [hb, ha2]
  simp only [List.drop_one, List.tail_cons, htk, hs3, hs4]
  rw [if_pos (by simp), if_neg hne]

theorem envLine_fits (kv : Str × Str) (hg : GoodEntry kv) :
    byteLen (envLine kv) < maxScanTokenSize ∧ '\n' ∉ envLine kv := by
  obtain ⟨_, _, _, hn1, hn2, _, _, hlen⟩ := hg
  rw [envLine_eq]
  constructor
  · rw [byteLen_append, byteLen_cons]
    have : '='.utf8Size = 1 := by decide
    omega
  · intro h
    rcases List.mem_append.mp h with h1 | h1
    · exact hn1 h1
    · rcases List.mem_cons.mp h1 with h2 | h2
      · exact absurd h2 (by decide)
      · exact hn2 h2

theorem Split_envFileContent (es : List (Str × Str)) (hg : ∀ kv ∈ es, GoodEntry kv) :
    Split (envFileContent es) '\n' = es.map envLine ++ [[]] := by
  induction es with
  | nil => rfl
  | cons a t ih =>
    obtain ⟨k, v⟩ := a
    have h1 := (envLine_fits (k, v) (hg _ (List.mem_cons_self _ _))).2
    have e : envFileContent ((k, v) :: t) = envLine (k, v) ++ '\n' :: envFileContent t := by
      simp [envFileContent, envLine]
    rw [e, Split_append_sep _ _ _ h1, ih (fun kv hkv => hg kv (List.mem_cons_of_mem _ hkv))]
    simp

theorem rawLines_envFileContent (es : List (Str × Str)) (hg : ∀ kv ∈ es, GoodEntry kv) :
    rawLines (envFileContent es) = es.map envLine := by
  unfold rawLines
  simp only [Split_envFileContent es hg]
  rw [if_pos (by simp)]
  simp

theorem scanLoop_envLines (es : List (Str × Str)) (n : Nat) (out : GoMap)
    (hg : ∀ kv ∈ es, GoodEntry kv) (hs : ∀ kv ∈ es, survivesStaging kv = true) :
    scanLoop (es.map envLine) n out = .ok (mapSetAll out es) := by
  induction es generalizing n out with
  | nil => rfl
  | cons a t ih =>
    have hga := hg a (List.mem_cons_self _ _)
    have hsa := hs a (List.mem_cons_self _ _)
    rw [List.map_cons, scanLoop_cons, if_neg (by have := (envLine_fits a hga).1; omega),
      parseLine_envLine (n + 1) a hga hsa]
    simp only
    rw [ih (n + 1) _ (fun kv hkv => hg kv (List.mem_cons_of_mem _ hkv))
      (fun kv hkv => hs kv (List.mem_cons_of_mem _ hkv))]
    rfl

theorem MapEq_of_perm (es m : GoMap) (hm : (mapKeys m).Nodup) (hperm : es.Perm m) :
    MapEq es m := by
  have hes : (mapKeys es).Nodup := (hperm.map Prod.fst).nodup_iff.mpr hm
  intro k
  apply Option.ext
  intro v
  rw [Option.mem_def, Option.mem_def, mapGet_eq_some_iff es hes, mapGet_eq_some_iff m hm]
  exact ⟨fun h => hperm.subset h, fun h => hperm.symm.subset h⟩

/-! ### Round trip through the staging format -/

/-- C4 fails as stated for a value with nested quotes: `A="'x'"` parses to the value
`'x'`, the staging line `A='x'` parses to the value `x`, and the two mappings differ. -/
theorem staging_round_trip_fails_on_nested_quotes :
    ParseFile (some "A=\"'x'\"".toList) = .ok [("A".toList, "'x'".toList)] ∧
    envFileContent [("A".toList, "'x'".toList)] = "A='x'\n".toList ∧
    ParseFile (some (envFileContent [("A".toList, "'x'".toList)]))
      = .ok [("A".toList, "x".toList)] ∧
    ¬ MapEq [("A".toList, "x".toList)] [("A".toList, "'x'".toList)] := by
  refine ⟨by decide, by decide, by decide, ?_⟩
  intro h
  exact absurd (h "A".toList) (by decide)

/-- C4, amended: for every definition-file text, if `ParseFile` produces the mapping `m`,
no key of `m` starts with `#` or with `export `, and every value of `m` has no whitespace
at its ends and is not wrapped in a matching pair of quotes, then serialising `m` as one
unquoted `key=value` line per entry, in any order `es` of the entries, and parsing that
text again succeeds and produces the same mapping. -/
theorem staging_round_trip (text : Str) (m es : GoMap)
    (h : ParseFile (some text) = .ok m) (hperm : es.Perm m)
    (hs : ∀ kv ∈ m, survivesStaging kv = true) :
    ParseFile (some (envFileContent es)) = .ok es ∧ MapEq es m := by
  obtain ⟨hnd, hg⟩ := ParseFile_good text m h
  have hes : (mapKeys es).Nodup := (hperm.map Prod.fst).nodup_iff.mpr hnd
  have hg2 : ∀ kv ∈ es, GoodEntry kv := fun kv hkv => hg kv (hperm.subset hkv)
  have hs2 : ∀ kv ∈ es, survivesStaging kv = true := fun kv hkv => hs kv (hperm.subset hkv)
  refine ⟨?_, MapEq_of_perm es m hnd hperm⟩
  unfold ParseFile
  simp only
  rw [rawLines_envFileContent es hg2, scanLoop_envLines es 0 [] hg2 hs2,
    mapSetAll_nodup [] es (by simpa using hes)]
  simp

theorem staging_round_trip_witness :
    ParseFile (some "export A = \"x y\" # c\nB=1\n".toList)
      = .ok [("A".toList, "x y".toList), ("B".toList, "1".toList)] ∧
    envFileContent [("B".toList, "1".toList), ("A".toList, "x y".toList)]
      = "B=1\nA=x y\n".toList ∧
    ParseFile (some (envFileContent [("B".toList, "1".toList), ("A".toList, "x y".toList)]))
      = .ok [("B".toList, "1".toList), ("A".toList, "x y".toList)] :=
  ⟨by decide, by decide,
    (staging_round_trip "export A = \"x y\" # c\nB=1\n".toList
      [("A".toList, "x y".toList), ("B".toList, "1".toList)]
      [("B".toList, "1".toList), ("A".toList, "x y".toList)] (by decide) (by decide)
      (by decide)).1⟩

/-! ### Reading the staging file -/

theorem dropCR_concat (y : Str) (d : Char) :
    dropCR (y ++ [d]) = if d = '\r' then y else y ++ [d] := by
  unfold dropCR
  rw [List.getLast?_append]
  simp only [List.getLast?_singleton, Option.or_some, Option.some.injEq]
  split
  · exact List.dropLast_concat
  · rfl

theorem dropCR_envLine (k v : Str) : dropCR (k ++ '=' :: v) = k ++ '=' :: dropCR v := by
  rcases List.eq_nil_or_concat v with hv | ⟨y, d, hv⟩
  · subst hv
    unfold dropCR
    rw [List.getLast?_append]
    simp
  · rw [List.concat_eq_append] at hv
    subst hv
    have e : k ++ '=' :: (y ++ [d]) = (k ++ '=' :: y) ++ [d] := by simp
    rw [e, dropCR_concat, dropCR_concat]
    split <;> simp

theorem rdropWhile_after (p : Char → Bool) (a : Str) (c : Char) (b : Str) (hc : p c = false) :
    (a ++ c :: b).rdropWhile p = a ++ c :: b.rdropWhile p := by
  induction b using List.reverseRecOn with
  | nil =>
    have e : a ++ [c] = a ++ [c] := rfl
    rw [List.rdropWhile_nil]
    exact List.rdropWhile_concat_neg p a c (by simp [hc])
  | append_singleton t d ih =>
    have e : a ++ c :: (t ++ [d]) = (a ++ c :: t) ++ [d] := by simp
    rw [e]
    by_cases hd : p d = true
    · rw [List.rdropWhile_concat_pos _ _ _ hd, List.rdropWhile_concat_pos _ _ _ hd, ih]
    · rw [List.rdropWhile_concat_neg _ _ _ hd, List.rdropWhile_concat_neg _ _ _ hd]
      simp

theorem TrimSpace_envLine (k v : Str) (hk : ∀ c, k.head? = some c → isSpace c = false) :
    TrimSpace (k ++ '=' :: v) = k ++ '=' :: v.rdropWhile isSpace := by
  unfold TrimSpace
  have h1 : (k ++ '=' :: v).dropWhile isSpace = k ++ '=' :: v := by
    cases k with
    | nil => simp [List.dropWhile_cons, isSpace_eq]
    | cons a t =>
      have := hk a rfl
      simp [List.dropWhile_cons, this]
  rw [h1, rdropWhile_after isSpace k '=' v isSpace_eq]

theorem hash_not_head (k v : Str) (hk : HasPrefix k "#".toList = false) :
    isSkipped (k ++ '=' :: v) = false := by
  cases k with
  | nil => rfl
  | cons a t =>
    unfold isSkipped HasPrefix at *
    simp only [List.cons_append]
    simpa [List.isPrefixOf] using hk

/-- The line of a stageable entry, read as a line of a definition file, is an error or
an entry under the same name. -/
theorem parseLine_staged (lineNo : Nat) (kv : Str × Str) (hs : Stageable kv)
    (r : Option (Str × Str)) (h : parseLine lineNo (dropCR (envLine kv)) = .ok r) :
    ∃ v2, r = some (kv.1, v2) := by
  obtain ⟨k, v⟩ := kv
  obtain ⟨heq, _, _, hhk, hhv, htk, hs1, hs2⟩ := hs
  simp only at heq hhk hhv htk hs1 hs2
  have hhead : ∀ c, k.head? = some c → isSpace c = false := by
    intro c hc
    apply TrimSpace_head k
    rw [htk]
    exact hc
  have hv1 : (dropCR v).rdropWhile isSpace <:+: v :=
    (List.rdropWhile_prefix isSpace _).isInfix.trans (dropCR_part v).isInfix
  rw [envLine_eq] at h
  simp only at h
  rw [dropCR_envLine] at h
  have hts := TrimSpace_envLine k (dropCR v) hhead
  generalize (dropCR v).rdropWhile isSpace = v1 at hts hv1
  have hex : stripExport (k ++ '=' :: v1) = k ++ '=' :: v1 := by
    unfold stripExport
    rw [export_not_head k v1 hs2]
    simp
  have hco : stripComment (k ++ '=' :: v1) = k ++ '=' :: v1 := by
    unfold stripComment
    have : Index (k ++ '=' :: v1) " #".toList = none := by
      rw [Index_eq_none_iff]
      intro hin
      rcases pair_part_append ' ' '#' '=' k v1 (by decide) (by decide) hin with h1 | h1
      · exact hhk h1
      · exact hhv (h1.trans hv1)
    rw [this]
  rw [parseLine_eq lineNo _ (by rw [hts]; exact hash_not_head k v1 hs1), hts, hex, hco] at h
  obtain ⟨hb, _⟩ := takeWhile_key k v1 heq
  unfold beforeEq at h
  rw [hb, htk, if_pos (by simp)] at h
  split at h
  · simp at h
  · simp only [Except.ok.injEq] at h
    exact ⟨_, h.symm⟩

theorem mem_mapKeys_mapSet (m : GoMap) (k v k2 : Str) (h : k2 = k ∨ k2 ∈ mapKeys m) :
    k2 ∈ mapKeys (mapSet m k v) := by
  rw [mapKeys_mapSet]
  split
  · rename_i hk
    rcases h with h | h
    · rw [h]; exact hk
    · exact h
  · rcases h with h | h
    · rw [h]; simp
    · exact List.mem_append_left _ h

/-- A staging file that is read without error holds every stageable name written to it. -/
theorem scanLoop_staged_keys (l : List (Str × Str)) (n : Nat) (out m : GoMap)
    (h : scanLoop (l.map envLine) n out = .ok m) (hs : ∀ kv ∈ l, Stageable kv) :
    (∀ kv ∈ l, kv.1 ∈ mapKeys m) ∧ (∀ k ∈ mapKeys out, k ∈ mapKeys m) := by
  induction l generalizing n out with
  | nil =>
    unfold scanLoop at h
    simp only [List.map_nil, Except.ok.injEq] at h
    rw [← h]
    simp
  | cons a t ih =>
    rw [List.map_cons, scanLoop_cons] at h
    split_ifs at h with hlong
    have hst : ∀ kv ∈ t, Stageable kv := fun kv hkv => hs kv (List.mem_cons_of_mem _ hkv)
    cases hp : parseLine (n + 1) (dropCR (envLine a)) with
    | error e => rw [hp] at h; simp at h
    | ok r =>
      obtain ⟨v2, hr⟩ := parseLine_staged (n + 1) a (hs a (List.mem_cons_self _ _)) r hp
      subst hr
      rw [hp] at h
      obtain ⟨h1, h2⟩ := ih (n + 1) _ h hst
      constructor
      · intro kv hkv
        rcases List.mem_cons.mp hkv with e | e
        · rw [e]
          exact h2 _ (mem_mapKeys_mapSet out a.1 v2 a.1 (Or.inl rfl))
        · exact h1 kv e
      · intro k hk
        exact h2 k (mem_mapKeys_mapSet out a.1 v2 k (Or.inr hk))

theorem Split_staged (l : List (Str × Str)) (hn : ∀ kv ∈ l, '\n' ∉ envLine kv) :
    Split (envFileContent l) '\n' = l.map envLine ++ [[]] := by
  induction l with
  | nil => rfl
  | cons a t ih =>
    obtain ⟨k, v⟩ := a
    have e : envFileContent ((k, v) :: t) = envLine (k, v) ++ '\n' :: envFileContent t := by
      simp [envFileContent, envLine]
    rw [e, Split_append_sep _ _ _ (hn _ (List.mem_cons_self _ _)),
      ih (fun kv hkv => hn kv (List.mem_cons_of_mem _ hkv))]
    simp

theorem ParseFile_staged_keys (l staged : GoMap) (hs : ∀ kv ∈ l, Stageable kv)
    (h : ParseFile (some (envFileContent l)) = .ok staged) :
    ∀ k ∈ mapKeys l, k ∈ mapKeys staged := by
  have hn : ∀ kv ∈ l, '\n' ∉ envLine kv := by
    intro kv hkv hm
    obtain ⟨_, h1, h2, _⟩ := hs kv hkv
    rw [envLine_eq] at hm
    rcases List.mem_append.mp hm with h3 | h3
    · exact h1 h3
    · rcases List.mem_cons.mp h3 with h4 | h4
      · exact absurd h4 (by decide)
      · exact h2 h4
  have hr : rawLines (envFileContent l) = l.map envLine := by
    unfold rawLines
    simp only [Split_staged l hn]
    rw [if_pos (by simp)]
    simp
  unfold ParseFile at h
  simp only [hr] at h
  intro k hk
  obtain ⟨kv, hkv, rfl⟩ := List.mem_map.mp hk
  exact (scanLoop_staged_keys l 0 [] staged h hs).1 kv hkv

theorem remoteName_tail (p : Str) (keep : Bool) (k : Str) : remoteName p keep k <:+ k := by
  unfold remoteName
  split
  · exact TrimPrefix_suffix k p
  · exact List.suffix_refl k

theorem getLast?_of_tail (s k : Str) (c : Char) (h : s <:+ k) (hc : s.getLast? = some c) :
    k.getLast? = some c := by
  obtain ⟨t, ht⟩ := h
  rw [← ht, List.getLast?_append, hc]
  rfl

/-- An entry of a parsed mapping, under a remote name that the staging format keeps, is
stageable. -/
theorem Stageable_of_good (p : Str) (keep : Bool) (k v : Str) (hg : GoodEntry (k, v))
    (hn : stagedNameOk (remoteName p keep k) = true) :
    Stageable (remoteName p keep k, v) := by
  obtain ⟨_, htk, heq, hn1, hn2, hhk, hhv, _⟩ := hg
  simp only at htk heq hn1 hhk
  have ht := remoteName_tail p keep k
  unfold stagedNameOk at hn
  simp only [Bool.and_eq_true, Bool.not_eq_true'] at hn
  obtain ⟨⟨h1, h2⟩, h3⟩ := hn
  refine ⟨fun h => heq (ht.subset h), fun h => hn1 (ht.subset h), hn2,
    fun h => hhk (h.trans ht.isInfix), hhv, ?_, h2, h3⟩
  apply TrimSpace_of_ends
  · intro c hc
    rw [hc] at h1
    simpa using h1
  · intro c hc
    apply TrimSpace_last k
    rw [htk]
    exact getLast?_of_tail _ k c ht hc

theorem classified_stageable (p : Str) (keep : Bool) (es : List (Str × Str))
    (hnd : (mapKeys es).Nodup) (hg : ∀ kv ∈ es, GoodEntry kv)
    (hn : ∀ kv, kv ∈ (classify p keep es).secrets ∨ kv ∈ (classify p keep es).vars →
      stagedNameOk kv.1 = true) :
    (∀ kv ∈ (classify p keep es).secrets, Stageable kv) ∧
    (∀ kv ∈ (classify p keep es).vars, Stageable kv) := by
  rw [classify_of_nodup p keep es hnd] at hn ⊢
  simp only at hn ⊢
  constructor
  · intro kv hkv
    have hok := hn kv (Or.inl hkv)
    unfold secretPart at hkv
    obtain ⟨e, he, rfl⟩ := List.mem_map.mp hkv
    exact Stageable_of_good p keep e.1 e.2 (hg e (List.mem_filter.mp he).1) hok
  · intro kv hkv
    have hok := hn kv (Or.inr hkv)
    unfold varPart at hkv
    obtain ⟨e, he, rfl⟩ := List.mem_map.mp hkv
    exact Stageable_of_good p keep e.1 e.2 (hg e (List.mem_filter.mp he).1) hok

theorem confirmDelete_yes (host : Host) (opts : Options) (w : World) (hy : opts.Yes = true) :
    confirmDelete host opts w = (true, w) := by
  unfold confirmDelete
  simp [hy]

theorem syncEntries_ok (host : Host) (ag : Agent) (opts : Options) (repo : Str)
    (entries : GoMap) (w w2 : World) (u : Unit)
    (hd : opts.DeleteMissing = true) (hy : opts.Yes = true) (hdry : opts.DryRun = false)
    (hss : ∀ kv ∈ (classify opts.SecretPrefix opts.KeepPrefix entries).secrets, Stageable kv)
    (hsv : ∀ kv ∈ (classify opts.SecretPrefix opts.KeepPrefix entries).vars, Stageable kv)
    (h : syncEntries host ag opts repo entries w = (.ok u, w2)) :
    (∀ n, n ∈ storeNames w2.remote.secrets repo opts.Env ↔
      n ∈ mapKeys (classify opts.SecretPrefix opts.KeepPrefix entries).secrets) ∧
    (∀ n, n ∈ storeNames w2.remote.vars repo opts.Env ↔
      n ∈ mapKeys (classify opts.SecretPrefix opts.KeepPrefix entries).vars) := by
  unfold syncEntries at h
  simp only [hdry, hd, Bool.false_eq_true, if_false, if_true] at h
  -- ensure environment
  have h1 : ∀ u1 w1, (if opts.Env ≠ [] then EnsureEnvironment ag repo opts.Env w
      else (.ok (), w)) = (.ok u1, w1) → ∀ kind, w1.remote.values kind = w.remote.values kind := by
    intro u1 w1 he kind
    split at he
    · exact EnsureEnvironment_ok ag repo opts.Env w w1 u1 he kind
    · simp only [Prod.mk.injEq] at he
      rw [← he.2]
  generalize (if opts.Env ≠ [] then EnsureEnvironment ag repo opts.Env w
      else (.ok (), w)) = s1 at h h1
  obtain ⟨r1, w1⟩ := s1
  cases r1 with
  | error e => simp at h
  | ok u1 =>
  simp only at h
  -- upsert the secrets
  have h2 : ∀ u2 w3, (if 0 < (classify opts.SecretPrefix opts.KeepPrefix entries).secrets.length
      then SetSecretsFromMap host ag repo opts.Env
        (classify opts.SecretPrefix opts.KeepPrefix entries).secrets false opts.Verbose w1
      else (.ok (), w1)) = (.ok u2, w3) →
      (∀ n, n ∈ mapKeys (classify opts.SecretPrefix opts.KeepPrefix entries).secrets →
        n ∈ storeNames w3.remote.secrets repo opts.Env) ∧
      w3.remote.vars = w1.remote.vars := by
    intro u2 w3 he
    split at he
    · obtain ⟨staged, hp, hs⟩ :=
        setFromMap_ok host ag .secret _ repo opts.Env _ opts.Verbose w1 w3 u2 he
      have hs1 := hs .secret
      have hs2 := hs .variable
      simp only [Remote.values, if_true] at hs1
      simp only [Remote.values] at hs2
      rw [if_neg (by decide)] at hs2
      refine ⟨fun n hn => ?_, hs2⟩
      rw [hs1, mem_storeNames_upsertAll]
      exact Or.inl (ParseFile_staged_keys _ staged hss hp n hn)
    · rename_i hlen
      simp only [Prod.mk.injEq] at he
      rw [← he.2]
      have : (classify opts.SecretPrefix opts.KeepPrefix entries).secrets = [] :=
        List.eq_nil_of_length_eq_zero (by omega)
      rw [this]
      simp [mapKeys]
  generalize (if 0 < (classify opts.SecretPrefix opts.KeepPrefix entries).secrets.length
      then SetSecretsFromMap host ag repo opts.Env
        (classify opts.SecretPrefix opts.KeepPrefix entries).secrets false opts.Verbose w1
      else (.ok (), w1)) = s2 at h h2
  obtain ⟨r2, w3⟩ := s2
  cases r2 with
  | error e => simp at h
  | ok u2 =>
  obtain ⟨hw3s, hw3v⟩ := h2 u2 w3 rfl
  simp only at h
  -- upsert the variables
  have h3 : ∀ u3 w4, (if 0 < (classify opts.SecretPrefix opts.KeepPrefix entries).vars.length
      then SetVariablesFromMap host ag repo opts.Env
        (classify opts.SecretPrefix opts.KeepPrefix entries).vars false opts.Verbose w3
      else (.ok (), w3)) = (.ok u3, w4) →
      (∀ n, n ∈ mapKeys (classify opts.SecretPrefix opts.KeepPrefix entries).vars →
        n ∈ storeNames w4.remote.vars repo opts.Env) ∧
      w4.remote.secrets = w3.remote.secrets := by
    intro u3 w4 he
    split at he
    · obtain ⟨staged, hp, hs⟩ :=
        setFromMap_ok host ag .variable _ repo opts.Env _ opts.Verbose w3 w4 u3 he
      have hs1 := hs .variable
      have hs2 := hs .secret
      simp only [Remote.values, if_true] at hs1
      simp only [Remote.values] at hs2
      rw [if_neg (by decide)] at hs2
      refine ⟨fun n hn => ?_, hs2⟩
      rw [hs1, mem_storeNames_upsertAll]
      exact Or.inl (ParseFile_staged_keys _ staged hsv hp n hn)
    · rename_i hlen
      simp only [Prod.mk.injEq] at he
      rw [← he.2]
      have : (classify opts.SecretPrefix opts.KeepPrefix entries).vars = [] :=
        List.eq_nil_of_length_eq_zero (by omega)
      rw [this]
      simp [mapKeys]
  generalize (if 0 < (classify opts.SecretPrefix opts.KeepPrefix entries).vars.length
      then SetVariablesFromMap host ag repo opts.Env
        (classify opts.SecretPrefix opts.KeepPrefix entries).vars false opts.Verbose w3
      else (.ok (), w3)) = s3 at h h3
  obtain ⟨r3, w4⟩ := s3
  cases r3 with
  | error e => simp at h
  | ok u3 =>
  obtain ⟨hw4v, hw4s⟩ := h3 u3 w4 rfl
  simp only at h
  -- delete the missing names
  rw [confirmDelete_yes host opts w4 hy] at h
  simp only at h
  split at h
  · simp at h
  · rename_i u5 w5 heq
    simp only [Prod.mk.injEq, Except.ok.injEq, true_and] at h
    subst h
    obtain ⟨h5s, h5v⟩ := DeleteMissing_ok ag repo opts.Env _ _ opts.Verbose w4 w5 u5 heq
    rw [emit_remote]
    constructor
    · intro n
      rw [h5s n, hw4s]
      exact ⟨fun hh => hh.2, fun hh => ⟨hw3s n hh, hh⟩⟩
    · intro n
      rw [h5v n]
      exact ⟨fun hh => hh.2, fun hh => ⟨hw4v n hh, hh⟩⟩

/-! ### The run with `--delete-missing --yes` -/

/-- C1 fails as stated in two ways.  With dry-run enabled the run returns without error and
the remote secret `OLD` is still there, although the secrets mapping has no key.  With
dry-run disabled and the definition file `export #A=1`, the parsed key `#A` is staged as
the line `#A=1`, which a reader of the definition-file format skips as a comment: the
run returns without error and no remote variable exists, although the variables mapping
has the key `#A`. -/
theorem sync_names_differ :
    (demoDryOptions.DeleteMissing = true ∧ demoDryOptions.Yes = true ∧
      (syncEntries demoHost reliableAgent demoDryOptions "acme/widgets".toList []
        ⟨demoRemote, []⟩).1 = .ok () ∧
      storeNames (syncEntries demoHost reliableAgent demoDryOptions "acme/widgets".toList []
        ⟨demoRemote, []⟩).2.remote.secrets "acme/widgets".toList demoDryOptions.Env
        = ["OLD".toList] ∧
      mapKeys (classify demoDryOptions.SecretPrefix demoDryOptions.KeepPrefix []).secrets
        = []) ∧
    (demoOptions.DeleteMissing = true ∧ demoOptions.Yes = true ∧
      ParseFile (some "export #A=1\n".toList) = .ok [("#A".toList, "1".toList)] ∧
      (syncEntries demoHost reliableAgent demoOptions "acme/widgets".toList
        [("#A".toList, "1".toList)] ⟨demoRemote, []⟩).1 = .ok () ∧
      storeNames (syncEntries demoHost reliableAgent demoOptions "acme/widgets".toList
        [("#A".toList, "1".toList)] ⟨demoRemote, []⟩).2.remote.vars "acme/widgets".toList
        demoOptions.Env = [] ∧
      mapKeys (classify demoOptions.SecretPrefix demoOptions.KeepPrefix
        [("#A".toList, "1".toList)]).vars = ["#A".toList]) := by
  decide

/-- C1, amended: for every initial remote store, every mapping parsed by `ParseFile`
(visited in any order), every agent and every option setting in which delete-missing and
yes are enabled and dry-run is disabled, when no classified remote name starts with
whitespace, with `#` or with `export `: if the run (ensure environment, upsert secrets,
upsert variables, list + diff + delete) returns without error, then in the scope of the
run the remote secret names are exactly the keys of the secrets mapping and the remote
variable names are exactly the keys of the variables mapping.  The agent reads each
staging file as a definition file. -/
theorem sync_names_exact (host : Host) (ag : Agent) (opts : Options) (repo : Str)
    (text : Str) (m entries : GoMap) (w : World)
    (hparsed : ParseFile (some text) = .ok m) (hperm : entries.Perm m)
    (hd : opts.DeleteMissing = true) (hy : opts.Yes = true) (hdry : opts.DryRun = false)
    (hnames : ∀ kv ∈ (classify opts.SecretPrefix opts.KeepPrefix entries).secrets ++
      (classify opts.SecretPrefix opts.KeepPrefix entries).vars, stagedNameOk kv.1 = true)
    (h : (syncEntries host ag opts repo entries w).1 = .ok ()) :
    (∀ n, n ∈ storeNames (syncEntries host ag opts repo entries w).2.remote.secrets repo opts.Env ↔
      n ∈ mapKeys (classify opts.SecretPrefix opts.KeepPrefix entries).secrets) ∧
    (∀ n, n ∈ storeNames (syncEntries host ag opts repo entries w).2.remote.vars repo opts.Env ↔
      n ∈ mapKeys (classify opts.SecretPrefix opts.KeepPrefix entries).vars) := by
  obtain ⟨hnd, hg⟩ := ParseFile_good text m hparsed
  have hes : (mapKeys entries).Nodup := (hperm.map Prod.fst).nodup_iff.mpr hnd
  have hg2 : ∀ kv ∈ entries, GoodEntry kv := fun kv hkv => hg kv (hperm.subset hkv)
  obtain ⟨hss, hsv⟩ := classified_stageable opts.SecretPrefix opts.KeepPrefix entries hes hg2
    (fun kv hkv => hnames kv (List.mem_append.mpr hkv))
  cases hs : syncEntries host ag opts repo entries w with
  | mk r w2 =>
    rw [hs] at h
    simp only at h
    subst h
    exact syncEntries_ok host ag opts repo entries w w2 () hd hy hdry hss hsv hs

theorem sync_names_exact_witness :
    ParseFile (some "SECURED_A=1\nB=2\n".toList)
      = .ok [("SECURED_A".toList, "1".toList), ("B".toList, "2".toList)] ∧
    (syncEntries demoHost reliableAgent demoOptions "acme/widgets".toList
      [("B".toList, "2".toList), ("SECURED_A".toList, "1".toList)] ⟨demoRemote, []⟩).1 = .ok () ∧
    (storeNames (syncEntries demoHost reliableAgent demoOptions "acme/widgets".toList
      [("B".toList, "2".toList), ("SECURED_A".toList, "1".toList)]
      ⟨demoRemote, []⟩).2.remote.secrets "acme/widgets".toList demoOptions.Env = ["A".toList]) ∧
    ("OLD".toList ∈ storeNames (syncEntries demoHost reliableAgent demoOptions
        "acme/widgets".toList [("B".toList, "2".toList), ("SECURED_A".toList, "1".toList)]
        ⟨demoRemote, []⟩).2.remote.secrets "acme/widgets".toList demoOptions.Env ↔
      "OLD".toList ∈ mapKeys (classify demoOptions.SecretPrefix demoOptions.KeepPrefix
        [("B".toList, "2".toList), ("SECURED_A".toList, "1".toList)]).secrets) :=
  ⟨by decide, by decide, by decide,
    (sync_names_exact demoHost reliableAgent demoOptions "acme/widgets".toList
      "SECURED_A=1\nB=2\n".toList
      [("SECURED_A".toList, "1".toList), ("B".toList, "2".toList)]
      [("B".toList, "2".toList), ("SECURED_A".toList, "1".toList)] ⟨demoRemote, []⟩
      (by decide) (by decide) (by decide) (by decide) (by decide) (by decide)
      (by decide)).1 "OLD".toList⟩

end GhManageEnv
